import Mathlib

/-!
Verification development for the idock docking engine core
(`src/array.cpp`, `src/ligand.cpp`, `src/monte_carlo_task.cpp`).

Machine floating-point values are embedded as exact rationals `ℚ`; every
floating-point operation of the source becomes the corresponding exact field
operation.  Irrational primitives (square roots inside `normalize`, the
trigonometric functions inside axis-angle-to-quaternion conversion, `exp` in
the Metropolis test, and the `mt19937_64` engine) are modelled as explicit
function parameters, so the embedded control flow is exactly that of the
source while the analytic functions stay abstract.
-/

namespace IDock

/-- A 3-vector, embedding `array<fl, 3>` / `vec3`. -/
structure V3 where
  x : ℚ
  y : ℚ
  z : ℚ
deriving DecidableEq, Repr

/-- A quaternion `(w, x, y, z)`, embedding `array<fl, 4>` / `qt`
(scalar-first, matching `a[0..3]` of `array.cpp`). -/
structure V4 where
  w : ℚ
  x : ℚ
  y : ℚ
  z : ℚ
deriving DecidableEq, Repr

/-- A 3x3 matrix in row-major order, embedding `array<fl, 9>` / `mat3`. -/
structure M3 where
  m0 : ℚ
  m1 : ℚ
  m2 : ℚ
  m3 : ℚ
  m4 : ℚ
  m5 : ℚ
  m6 : ℚ
  m7 : ℚ
  m8 : ℚ
deriving DecidableEq, Repr

/-- The zero 3-vector (`zero3`). -/
def zero3 : V3 := ⟨0, 0, 0⟩

/-- Vector addition (`operator+` of `array.cpp`). -/
def vadd (a b : V3) : V3 := ⟨a.x + b.x, a.y + b.y, a.z + b.z⟩

/-- Vector subtraction (`operator-` of `array.cpp`). -/
def vsub (a b : V3) : V3 := ⟨a.x - b.x, a.y - b.y, a.z - b.z⟩

/-- Scalar multiplication (`operator*(fl, array<fl,3>)` of `array.cpp`). -/
def smul (s : ℚ) (a : V3) : V3 := ⟨s * a.x, s * a.y, s * a.z⟩

/-- Cross product (`operator*(array<fl,3>, array<fl,3>)` of `array.cpp`). -/
def cross (a b : V3) : V3 :=
  ⟨a.y * b.z - a.z * b.y, a.z * b.x - a.x * b.z, a.x * b.y - a.y * b.x⟩

/-- Dot product of two 3-vectors (`operator*` on `vec3`, dot form). -/
def vdot (a b : V3) : ℚ := a.x * b.x + a.y * b.y + a.z * b.z

/-- Squared norm of a 3-vector (`norm_sqr` of `array.cpp`). -/
def normSqr3 (a : V3) : ℚ := a.x * a.x + a.y * a.y + a.z * a.z

/-- Squared norm of a quaternion (`norm_sqr` of `array.cpp`). -/
def normSqr4 (a : V4) : ℚ := a.w * a.w + a.x * a.x + a.y * a.y + a.z * a.z

/-- Squared distance between two points (`distance_sqr` of `array.cpp`). -/
def distSqr (a b : V3) : ℚ :=
  (a.x - b.x) * (a.x - b.x) + (a.y - b.y) * (a.y - b.y) + (a.z - b.z) * (a.z - b.z)

/-- The unit-norm test of `array.cpp` (`normalized`): the squared norm is
within `1e-2` of one.  The source compares `fabs(norm_sqr(a) - 1.0f) < 1e-2f`. -/
def normalized4 (a : V4) : Bool := |normSqr4 a - 1| < 1 / 100

/-- Hamilton product of two quaternions (`operator*(array<fl,4>, array<fl,4>)`
of `array.cpp`). -/
def qmul (a b : V4) : V4 :=
  ⟨a.w * b.w - a.x * b.x - a.y * b.y - a.z * b.z,
   a.w * b.x + a.x * b.w + a.y * b.z - a.z * b.y,
   a.w * b.y - a.x * b.z + a.y * b.w + a.z * b.x,
   a.w * b.z + a.x * b.y - a.y * b.x + a.z * b.w⟩

/-- Quaternion to rotation matrix (`qtn4_to_mat3` of `array.cpp`,
`quaternion_to_matrix` in `ligand.cpp`). -/
def qtnToMat3 (a : V4) : M3 :=
  let ww := a.w * a.w
  let wx := a.w * a.x
  let wy := a.w * a.y
  let wz := a.w * a.z
  let xx := a.x * a.x
  let xy := a.x * a.y
  let xz := a.x * a.z
  let yy := a.y * a.y
  let yz := a.y * a.z
  let zz := a.z * a.z
  ⟨ww + xx - yy - zz, 2 * (-wz + xy), 2 * (wy + xz),
   2 * (wz + xy), ww - xx + yy - zz, 2 * (-wx + yz),
   2 * (-wy + xz), 2 * (wx + yz), ww - xx - yy + zz⟩

/-- Matrix-vector product (`operator*(array<fl,9>, array<fl,3>)` of
`array.cpp`). -/
def mvmul (m : M3) (v : V3) : V3 :=
  ⟨m.m0 * v.x + m.m1 * v.y + m.m2 * v.z,
   m.m3 * v.x + m.m4 * v.y + m.m5 * v.z,
   m.m6 * v.x + m.m7 * v.y + m.m8 * v.z⟩

/-- Restrictive triangular-matrix index (`mr` / `triangular_matrix_restrictive_index`
of `array.cpp`): requires `x <= y` and returns `y(y+1)/2 + x`. -/
def mr (x y : ℕ) : ℕ := (y * (y + 1)) / 2 + x

/-- Permissive triangular-matrix index (`mp` /
`triangular_matrix_permissive_index` of `array.cpp`): sorts its arguments. -/
def mp (x y : ℕ) : ℕ := if x ≤ y then mr x y else mr y x

/-- Trigonometric oracle used by `axis_angle_to_quaternion`
(`vec4_to_qtn4` in `array.cpp` computes `sin(angle/2)` and `cos(angle/2)`;
these are irrational, so they are supplied as abstract functions). -/
structure Trig where
  sin : ℚ → ℚ
  cos : ℚ → ℚ

/-- Axis-angle to quaternion (`vec4_to_qtn4` of `array.cpp`,
`axis_angle_to_quaternion` in `ligand.cpp`): with `h = angle * 0.5`,
returns `(cos h, sin h * axis)`. -/
def axisAngleToQ (tr : Trig) (axis : V3) (angle : ℚ) : V4 :=
  let h := angle * (1 / 2)
  let s := tr.sin h
  let c := tr.cos h
  ⟨c, s * axis.x, s * axis.y, s * axis.z⟩

/-! ## Data model: atoms, frames, ligand, box, grid maps, scoring function -/

/-- A heavy atom or hydrogen: coordinate (local frame coordinates after
construction, world coordinates during parsing), XScore type index `xs`, and
covalent radius.  Modelled from the spec: `atom.hpp` is not in the sources;
the spec gives the neighbor predicate via kind-dependent covalent radii. -/
structure Atom where
  coordinate : V3
  xs : ℕ
  radius : ℚ
deriving DecidableEq, Repr

instance : Inhabited Atom := ⟨⟨zero3, 0, 0⟩⟩

/-- A rigid-body frame of the ligand kinematic tree (`class frame` as used by
`ligand.cpp`): parent index, rotor X / rotor Y heavy-atom indices, half-open
heavy-atom and hydrogen ranges, activity flag, and the two precomputed local
vectors `parent_rotorY_to_current_rotorY` (`yy`) and
`parent_rotorX_to_current_rotorY` (`xy`). -/
structure Frm where
  parent : ℕ
  rotorX : ℕ
  rotorY : ℕ
  habegin : ℕ
  haend : ℕ
  hybegin : ℕ
  hyend : ℕ
  active : Bool
  yy : V3
  xy : V3
deriving DecidableEq, Repr

instance : Inhabited Frm := ⟨⟨0, 0, 0, 0, 0, 0, 0, true, zero3, zero3⟩⟩

/-- An interacting pair `(i1, i2, type_pair_index)` (`class interacting_pair`). -/
structure IPair where
  i1 : ℕ
  i2 : ℕ
  typePairIndex : ℕ
deriving DecidableEq, Repr

/-- The ligand after construction (`class ligand`): frames, heavy atoms,
hydrogens, the interacting-pair list, and the number of active torsions. -/
structure Lig where
  frames : List Frm
  heavyAtoms : List Atom
  hydrogens : List Atom
  pairs : List IPair
  numActiveTorsions : ℕ
deriving Repr

/-- Number of frames. -/
def Lig.numFrames (lig : Lig) : ℕ := lig.frames.length

/-- Number of heavy atoms. -/
def Lig.numHeavyAtoms (lig : Lig) : ℕ := lig.heavyAtoms.length

/-- Frame at index `k` (out-of-range reads give the default frame). -/
def Lig.frameAt (lig : Lig) (k : ℕ) : Frm := lig.frames.getD k default

/-- Heavy atom at index `i`. -/
def Lig.atomAt (lig : Lig) (i : ℕ) : Atom := lig.heavyAtoms.getD i default

/-- The heavy-atom index range `[habegin, haend)` of frame `k`. -/
def Lig.haIndices (lig : Lig) (k : ℕ) : List ℕ :=
  List.range' (lig.frameAt k).habegin ((lig.frameAt k).haend - (lig.frameAt k).habegin)

/-- The search box.  Modelled from the spec: the `box` class is not among the
sources; the spec defines containment in the half-open box
`corner0[d] <= c[d] < corner1[d]` and the grid index
`floor((c - corner0) / granularity)`, with the code using the precomputed
`grid_granularity_inverse`. -/
structure Box where
  corner0 : V3
  corner1 : V3
  granularityInv : ℚ
deriving Repr

/-- Half-open box containment (`box::within`).  Modelled from the spec. -/
def Box.within (b : Box) (c : V3) : Bool :=
  decide (b.corner0.x ≤ c.x) && decide (c.x < b.corner1.x) &&
  (decide (b.corner0.y ≤ c.y) && decide (c.y < b.corner1.y)) &&
  (decide (b.corner0.z ≤ c.z) && decide (c.z < b.corner1.z))

/-- Integer grid index of a coordinate (`box::grid_index`).  Modelled from
the spec: `floor((c - corner0) * granularity_inverse)` per dimension. -/
def Box.gridIndex (b : Box) (c : V3) : ℕ × ℕ × ℕ :=
  ((Int.floor ((c.x - b.corner0.x) * b.granularityInv)).toNat,
   (Int.floor ((c.y - b.corner0.y) * b.granularityInv)).toNat,
   (Int.floor ((c.z - b.corner0.z) * b.granularityInv)).toNat)

/-- Receptor grid maps: for each XScore type an energy sampled at each
integer grid corner (`vector<array3d<fl>> grid_maps`, consumed read-only). -/
def GridMaps : Type := ℕ → ℕ × ℕ × ℕ → ℚ

/-- The scoring function's external contract (`scoring_function::evaluate`
returns `(e, dor)`; `Cutoff_Sqr` bounds interactions).  Modelled from the
spec: the scoring function internals are out of scope. -/
structure SF where
  eval : ℕ → ℚ → ℚ × ℚ
  cutoffSqr : ℚ

/-- A pose: position, orientation quaternion, and active-torsion angles
(`class conformation`). -/
structure Conformation where
  position : V3
  orientation : V4
  torsions : List ℚ
deriving DecidableEq, Repr

/-- The gradient of the energy with respect to the pose variables
(`class change`): 3 position components, 3 orientation (axial) components,
one value per active torsion. -/
structure Change where
  position : V3
  orientation : V3
  torsions : List ℚ
deriving DecidableEq, Repr

/-- Flat indexed access to a `Change` with the source convention
`[0..3) = position, [3..6) = orientation, [6..) = torsions`
(`change::operator[]`, stated in the spec's design notes). -/
def Change.get (g : Change) (i : ℕ) : ℚ :=
  if i = 0 then g.position.x
  else if i = 1 then g.position.y
  else if i = 2 then g.position.z
  else if i = 3 then g.orientation.x
  else if i = 4 then g.orientation.y
  else if i = 5 then g.orientation.z
  else g.torsions.getD (i - 6) 0

/-! ## Forward kinematics of `ligand::evaluate`

The source loops over frames in ascending index order, each frame reading
its parent's origin and orientation (`parent < k` for every non-root frame).
The loop is embedded as a fuel-indexed structural recursion on the frame
index; `evalFrame k = evalFrameGo k k` and fuel monotonicity below shows the
fuel is irrelevant whenever it is at least the frame index. -/

/-- Per-frame values computed by `ligand::evaluate`: origin, orientation
quaternion, orientation matrix, rotation axis. -/
structure FrameVals where
  origin : V3
  q : V4
  m : M3
  axis : V3
deriving DecidableEq, Repr

instance : Inhabited FrameVals :=
  ⟨⟨zero3, ⟨1, 0, 0, 0⟩, qtnToMat3 ⟨1, 0, 0, 0⟩, zero3⟩⟩

/-- The torsion counter value when frame `k` is processed: the number of
active frames with index in `[1, k)` (the source increments `t` once per
active frame, in ascending frame order). -/
def Lig.tIdx (lig : Lig) (k : ℕ) : ℕ :=
  ((List.range k).filter (fun m => decide (m ≠ 0) && (lig.frameAt m).active)).length

/-- Fuel-indexed forward kinematics (`ligand::evaluate`, frame loop):
frame 0 takes the conformation's position and orientation; frame `k > 0`
has origin `origin[parent] + orient_m[parent] * yy`; if active, its axis is
`orient_m[parent] * xy` and its orientation is
`axis_angle_to_quaternion(axis, torsions[t]) * orient_q[parent]`.  For an
inactive frame the source leaves the orientation entries uninitialized and
never reads them (inactive frames are leaves); they are modelled as the
identity values. -/
def evalFrameGo (lig : Lig) (tr : Trig) (conf : Conformation) : ℕ → ℕ → FrameVals
  | _, 0 => ⟨conf.position, conf.orientation, qtnToMat3 conf.orientation, zero3⟩
  | 0, _ + 1 => default
  | fu + 1, k + 1 =>
    let f := lig.frameAt (k + 1)
    if f.parent < k + 1 then
      let pd := evalFrameGo lig tr conf fu f.parent
      let origin := vadd pd.origin (mvmul pd.m f.yy)
      if f.active then
        let ax := mvmul pd.m f.xy
        let q := qmul (axisAngleToQ tr ax (conf.torsions.getD (lig.tIdx (k + 1)) 0)) pd.q
        ⟨origin, q, qtnToMat3 q, ax⟩
      else
        ⟨origin, ⟨1, 0, 0, 0⟩, qtnToMat3 ⟨1, 0, 0, 0⟩, zero3⟩
    else default

/-- Forward kinematics values of frame `k`. -/
def evalFrame (lig : Lig) (tr : Trig) (conf : Conformation) (k : ℕ) : FrameVals :=
  evalFrameGo lig tr conf k k

/-- Index of the first frame (counting from `k0`) whose `[lo, hi)` range
contains `i`; returns the list length offset if none does. -/
def ownerGo (lo hi : Frm → ℕ) (i : ℕ) : List Frm → ℕ → ℕ
  | [], k0 => k0
  | f :: rest, k0 =>
    if lo f ≤ i ∧ i < hi f then k0 else ownerGo lo hi i rest (k0 + 1)

/-- The index of the frame owning heavy atom `i` (the source computes atom
coordinates inside the per-frame loop; atom `i` is processed by the frame
whose `[habegin, haend)` range contains it). -/
def Lig.frameOf (lig : Lig) (i : ℕ) : ℕ :=
  ownerGo Frm.habegin Frm.haend i lig.frames 0

/-- The index of the frame owning hydrogen `i`. -/
def Lig.frameOfHy (lig : Lig) (i : ℕ) : ℕ :=
  ownerGo Frm.hybegin Frm.hyend i lig.frames 0

/-- World coordinate of heavy atom `i` as computed by `ligand::evaluate`:
`origin[k] + orient_m[k] * local` for atoms of the root or of an active
frame; for an inactive frame only `coordinates[rotorY] = origin[k]` is
written (remaining slots of the scratch vector are modelled as zero). -/
def evalCoord (lig : Lig) (tr : Trig) (conf : Conformation) (i : ℕ) : V3 :=
  let k := lig.frameOf i
  let f := lig.frameAt k
  let fd := evalFrame lig tr conf k
  if k = 0 ∨ f.active then vadd fd.origin (mvmul fd.m (lig.atomAt i).coordinate)
  else if i = f.rotorY then fd.origin
  else zero3

/-- All box-containment checks of the kinematics pass of `ligand::evaluate`
except the initial position check: every root heavy atom is inside, every
non-root frame origin is inside, and every heavy atom of an active non-root
frame is inside (for an inactive frame only its origin is checked). -/
def coordsWithin (lig : Lig) (tr : Trig) (conf : Conformation) (b : Box) : Bool :=
  (lig.haIndices 0).all (fun i => b.within (evalCoord lig tr conf i)) &&
  (List.range' 1 (lig.numFrames - 1)).all (fun k =>
    b.within (evalFrame lig tr conf k).origin &&
    (if (lig.frameAt k).active then
      (lig.haIndices k).all (fun i => b.within (evalCoord lig tr conf i))
    else true))

/-- Grid-map energy of heavy atom `i` (`e000` at its grid index). -/
def eInterAt (lig : Lig) (tr : Trig) (conf : Conformation) (b : Box)
    (maps : GridMaps) (i : ℕ) : ℚ :=
  maps (lig.atomAt i).xs (b.gridIndex (evalCoord lig tr conf i))

/-- Total inter-molecular energy: sum of grid-map energies over heavy atoms. -/
def eInter (lig : Lig) (tr : Trig) (conf : Conformation) (b : Box)
    (maps : GridMaps) : ℚ :=
  ((List.range lig.numHeavyAtoms).map (eInterAt lig tr conf b maps)).sum

/-- Energy contribution of one interacting pair: if the squared distance is
below the cutoff, the scoring-function energy, else zero. -/
def pairEnergy (lig : Lig) (tr : Trig) (conf : Conformation) (sf : SF)
    (p : IPair) : ℚ :=
  let r := vsub (evalCoord lig tr conf p.i2) (evalCoord lig tr conf p.i1)
  let r2 := normSqr3 r
  if r2 < sf.cutoffSqr then (sf.eval p.typePairIndex r2).1 else 0

/-- Total intra-molecular energy: sum over the interacting-pair list. -/
def eIntra (lig : Lig) (tr : Trig) (conf : Conformation) (sf : SF) : ℚ :=
  (lig.pairs.map (pairEnergy lig tr conf sf)).sum

/-- Grid-map forward-difference derivative of heavy atom `i`. -/
def gridDeriv (lig : Lig) (tr : Trig) (conf : Conformation) (b : Box)
    (maps : GridMaps) (i : ℕ) : V3 :=
  let idx := b.gridIndex (evalCoord lig tr conf i)
  let t := (lig.atomAt i).xs
  let e000 := maps t idx
  let e100 := maps t (idx.1 + 1, idx.2.1, idx.2.2)
  let e010 := maps t (idx.1, idx.2.1 + 1, idx.2.2)
  let e001 := maps t (idx.1, idx.2.1, idx.2.2 + 1)
  ⟨(e100 - e000) * b.granularityInv,
   (e010 - e000) * b.granularityInv,
   (e001 - e000) * b.granularityInv⟩

/-- Derivative contribution of one interacting pair to heavy atom `i`:
`-dor * r` for the first member, `+dor * r` for the second, zero beyond the
cutoff. -/
def pairDerivContrib (lig : Lig) (tr : Trig) (conf : Conformation) (sf : SF)
    (p : IPair) (i : ℕ) : V3 :=
  let r := vsub (evalCoord lig tr conf p.i2) (evalCoord lig tr conf p.i1)
  let r2 := normSqr3 r
  if r2 < sf.cutoffSqr then
    let d := smul (sf.eval p.typePairIndex r2).2 r
    vadd (if i = p.i1 then smul (-1) d else zero3)
         (if i = p.i2 then d else zero3)
  else zero3

/-- Total derivative of heavy atom `i`: grid derivative plus pair
contributions accumulated over the interacting-pair list. -/
def derivAt (lig : Lig) (tr : Trig) (conf : Conformation) (b : Box)
    (maps : GridMaps) (sf : SF) (i : ℕ) : V3 :=
  (lig.pairs.map (fun p => pairDerivContrib lig tr conf sf p i)).foldl vadd
    (gridDeriv lig tr conf b maps i)

/-- Sum of atom derivatives of frame `k`. -/
def localForce (lig : Lig) (tr : Trig) (conf : Conformation) (b : Box)
    (maps : GridMaps) (sf : SF) (k : ℕ) : V3 :=
  ((lig.haIndices k).map (derivAt lig tr conf b maps sf)).foldl vadd zero3

/-- Sum of atom torques of frame `k` about its origin. -/
def localTorque (lig : Lig) (tr : Trig) (conf : Conformation) (b : Box)
    (maps : GridMaps) (sf : SF) (k : ℕ) : V3 :=
  ((lig.haIndices k).map (fun i =>
    cross (vsub (evalCoord lig tr conf i) (evalFrame lig tr conf k).origin)
          (derivAt lig tr conf b maps sf i))).foldl vadd zero3

/-- Child frames of `k` (frames with `parent = k`; under the topological
ordering invariant every child has a larger index, which bounds the
recursion). -/
def Lig.childrenOf (lig : Lig) (k : ℕ) : List ℕ :=
  (List.range lig.numFrames).filter
    (fun m => decide (k < m) && decide ((lig.frameAt m).parent = k))

/-- Subtree force and torque of frame `k` (the reverse-order accumulation
loop of `ligand::evaluate`: each frame adds `force[k]` and
`torque[k] + (origin[k] - origin[parent]) x force[k]` into its parent; since
children are processed before parents, `force[k]`/`torque[k]` at processing
time are subtree sums). -/
def subFT (lig : Lig) (tr : Trig) (conf : Conformation) (b : Box)
    (maps : GridMaps) (sf : SF) : ℕ → ℕ → V3 × V3
  | 0, k => (localForce lig tr conf b maps sf k, localTorque lig tr conf b maps sf k)
  | fu + 1, k =>
    (lig.childrenOf k).foldl
      (fun acc m =>
        let fm := subFT lig tr conf b maps sf fu m
        (vadd acc.1 fm.1,
         vadd acc.2 (vadd fm.2
           (cross (vsub (evalFrame lig tr conf m).origin (evalFrame lig tr conf k).origin)
                  fm.1))))
      (localForce lig tr conf b maps sf k, localTorque lig tr conf b maps sf k)

/-- The gradient written by `ligand::evaluate` once the energy bound check
has passed: `g.position = force[0]`, `g.orientation = torque[0]`, and for
every active frame (ascending order matches the reverse-order `--t` writes)
the torsion gradient `torque[k] * axis[k]`. -/
def evalGradient (lig : Lig) (tr : Trig) (conf : Conformation) (b : Box)
    (maps : GridMaps) (sf : SF) : Change :=
  let rootFT := subFT lig tr conf b maps sf lig.numFrames 0
  { position := rootFT.1
    orientation := rootFT.2
    torsions :=
      (((List.range lig.numFrames).filter
        (fun k => decide (k ≠ 0) && (lig.frameAt k).active)).map
        (fun k => vdot (subFT lig tr conf b maps sf lig.numFrames k).2
                       (evalFrame lig tr conf k).axis)) }

/-- The conformation evaluator (`ligand::evaluate`).  Mirrors the staged
early returns of the source: the output parameters `e`, `f`, `g` enter as
`e0`, `f0`, `g0` and are returned untouched on paths that the source leaves
before assigning them.  `e` is set only after all box checks pass; `f` is
set to the inter-molecular sum before the intra-molecular loop; `g` is
written only after the final energy-bound check. -/
def Lig.evaluate (lig : Lig) (tr : Trig) (conf : Conformation) (sf : SF)
    (b : Box) (maps : GridMaps) (eUpperBound : ℚ) (e0 f0 : ℚ) (g0 : Change) :
    Bool × ℚ × ℚ × Change :=
  if ¬ b.within conf.position then (false, e0, f0, g0)
  else if ¬ coordsWithin lig tr conf b then (false, e0, f0, g0)
  else
    let ei := eInter lig tr conf b maps
    let et := ei + eIntra lig tr conf sf
    if et ≥ eUpperBound then (false, et, ei, g0)
    else (true, et, ei, evalGradient lig tr conf b maps sf)

/-! ## `ligand::compose_result` -/

/-- Fuel-indexed forward kinematics of `ligand::compose_result`: origins as
in `evaluate`; the orientation of every non-root frame is
`axis_angle_to_quaternion(orient_m[parent] * xy, active ? torsions[t++] : 0)
 * orient_q[parent]` (an inactive frame applies a torsion angle of zero). -/
def composeFrameGo (lig : Lig) (tr : Trig) (conf : Conformation) : ℕ → ℕ → FrameVals
  | _, 0 => ⟨conf.position, conf.orientation, qtnToMat3 conf.orientation, zero3⟩
  | 0, _ + 1 => default
  | fu + 1, k + 1 =>
    let f := lig.frameAt (k + 1)
    if f.parent < k + 1 then
      let pd := composeFrameGo lig tr conf fu f.parent
      let origin := vadd pd.origin (mvmul pd.m f.yy)
      let q := qmul (axisAngleToQ tr (mvmul pd.m f.xy)
        (if f.active then conf.torsions.getD (lig.tIdx (k + 1)) 0 else 0)) pd.q
      ⟨origin, q, qtnToMat3 q, zero3⟩
    else default

/-- Forward kinematics values of frame `k` in `compose_result`. -/
def composeFrame (lig : Lig) (tr : Trig) (conf : Conformation) (k : ℕ) : FrameVals :=
  composeFrameGo lig tr conf k k

/-- World coordinate of heavy atom `i` as computed by `compose_result`:
uniformly `origin[k] + orient_m[k] * local`. -/
def composeCoord (lig : Lig) (tr : Trig) (conf : Conformation) (i : ℕ) : V3 :=
  let fd := composeFrame lig tr conf (lig.frameOf i)
  vadd fd.origin (mvmul fd.m (lig.atomAt i).coordinate)

/-- World coordinate of hydrogen `i` as computed by `compose_result`. -/
def composeHyCoord (lig : Lig) (tr : Trig) (conf : Conformation) (i : ℕ) : V3 :=
  let fd := composeFrame lig tr conf (lig.frameOfHy i)
  vadd fd.origin (mvmul fd.m (lig.hydrogens.getD i default).coordinate)

/-- A docking result (`class result`): total energy, inter-molecular energy,
heavy-atom world coordinates, hydrogen world coordinates. -/
structure Res where
  e : ℚ
  f : ℚ
  heavy : List V3
  hyd : List V3
deriving DecidableEq, Repr

/-- `ligand::compose_result`. -/
def Lig.compose_result (lig : Lig) (tr : Trig) (e f : ℚ) (conf : Conformation) : Res :=
  ⟨e, f,
   (List.range lig.numHeavyAtoms).map (composeCoord lig tr conf),
   (List.range lig.hydrogens.length).map (composeHyCoord lig tr conf)⟩

/-! ## Ligand well-formedness

Invariants established by `ligand::ligand` and asserted throughout the
source: at least one frame; the root frame is active with `habegin = 0`;
every non-root frame has a smaller, active parent (inactive frames are
leaves: a frame is marked inactive only when it is the globally last frame
at its `ENDBRANCH`, so no child is ever attached to it); an inactive frame
owns exactly its rotor Y atom, whose local coordinate is zero after the
relativize pass; the frames' heavy-atom ranges form a chain partition of
`[0, num_heavy_atoms)`. -/

/-- Decidable well-formedness of a ligand. -/
def Lig.wf (lig : Lig) : Bool :=
  decide (1 ≤ lig.numFrames) &&
  (lig.frameAt 0).active &&
  decide ((lig.frameAt 0).habegin = 0) &&
  ((List.range' 1 (lig.numFrames - 1)).all fun k =>
    decide ((lig.frameAt k).parent < k) &&
    (lig.frameAt (lig.frameAt k).parent).active &&
    (if (lig.frameAt k).active then true
     else
       decide ((lig.frameAt k).haend = (lig.frameAt k).habegin + 1) &&
       decide ((lig.frameAt k).rotorY = (lig.frameAt k).habegin) &&
       decide ((lig.atomAt (lig.frameAt k).rotorY).coordinate = zero3))) &&
  ((List.range lig.numFrames).all fun k =>
    decide ((lig.frameAt k).habegin ≤ (lig.frameAt k).haend)) &&
  ((List.range (lig.numFrames - 1)).all fun k =>
    decide ((lig.frameAt (k + 1)).habegin = (lig.frameAt k).haend)) &&
  decide ((lig.frameAt (lig.numFrames - 1)).haend = lig.numHeavyAtoms)

/-! ## Construction of the interacting-pair list (`ligand::ligand`)

The source builds a covalent-bond adjacency (`bonds`): within each frame,
every heavy-atom pair within covalent-bond distance, plus the
`(rotorY, rotorX)` joint bond of each non-root frame.  Then, for every heavy
atom `i`, it collects all atoms reachable by one, two or three adjacency
steps (`neighbors`) and emits a pair `(i, j)` for every heavy atom `j` of a
later frame that is neither collected nor excluded by the joint rule. -/

/-- The covalent-bond neighbor predicate (`atom::is_neighbor`).  Modelled
from the spec: two atoms are neighbors when their squared distance is below
the squared sum of their covalent radii. -/
def Atom.is_neighbor (a b : Atom) : Bool :=
  decide (distSqr a.coordinate b.coordinate < (a.radius + b.radius) * (a.radius + b.radius))

/-- The bond insertions performed by the construction loop, in loop order:
for each frame, each intra-frame heavy-atom pair `(i, j)` with `i < j` that
passes `is_neighbor`, then (for non-root frames) the joint `(rotorY, rotorX)`. -/
def bondPairs (lig : Lig) : List (ℕ × ℕ) :=
  (List.range lig.numFrames).flatMap (fun k =>
    ((lig.haIndices k).flatMap (fun i =>
      ((List.range' (i + 1) ((lig.frameAt k).haend - (i + 1))).filter
        (fun j => (lig.atomAt i).is_neighbor (lig.atomAt j))).map (fun j => (i, j)))) ++
    (if k = 0 then [] else [((lig.frameAt k).rotorY, (lig.frameAt k).rotorX)]))

/-- Insert one bond into the adjacency (`bonds[i].push_back(j)` and
`bonds[j].push_back(i)`). -/
def addBond (b : ℕ → List ℕ) (p : ℕ × ℕ) : ℕ → List ℕ :=
  fun t =>
    (b t ++ (if t = p.1 then [p.2] else [])) ++ (if t = p.2 then [p.1] else [])

/-- The covalent-bond adjacency built by `ligand::ligand`. -/
def buildBonds (lig : Lig) : ℕ → List ℕ :=
  (bondPairs lig).foldl addBond (fun _ => [])

/-- Append a value unless already present (the `find == end` guard of the
neighbor-collection loop). -/
def pushNew (acc : List ℕ) (x : ℕ) : List ℕ :=
  if x ∈ acc then acc else acc ++ [x]

/-- The neighbor-collection triple loop of `ligand::ligand`: all atoms
reached from `i` by one, two or three adjacency steps, deduplicated. -/
def collectNeighbors (bonds : ℕ → List ℕ) (i : ℕ) : List ℕ :=
  (bonds i).foldl (fun acc b1 =>
    (bonds b1).foldl (fun acc2 b2 =>
      (bonds b2).foldl (fun acc3 b3 => pushNew acc3 b3) (pushNew acc2 b2))
      (pushNew acc b1)) []

/-- The interacting-pair list built by `ligand::ligand`: for each frame pair
`k1 < k2` and heavy atoms `i` of `k1`, `j` of `k2`, emit
`(i, j, triangular_matrix_permissive_index(xs_i, xs_j))` unless `j` was
collected as a neighbor of `i` or `(k1 == parent(k2)` and `(j == rotorY(k2)`
or `i == rotorX(k2)))`. -/
def interactingPairs (lig : Lig) : List IPair :=
  (List.range lig.numFrames).flatMap (fun k1 =>
    (lig.haIndices k1).flatMap (fun i =>
      let nbrs := collectNeighbors (buildBonds lig) i
      (List.range' (k1 + 1) (lig.numFrames - (k1 + 1))).flatMap (fun k2 =>
        let f2 := lig.frameAt k2
        ((lig.haIndices k2).filter (fun j =>
          !((decide (k1 = f2.parent) && (decide (j = f2.rotorY) || decide (i = f2.rotorX))) ||
            decide (j ∈ nbrs)))).map
          (fun j => ⟨i, j, mp (lig.atomAt i).xs (lig.atomAt j).xs⟩))))

/-- `walkB bonds n i j` holds when some walk of exactly `n` adjacency steps
leads from `i` to `j` (reference predicate for the neighbor collection). -/
def walkB (bonds : ℕ → List ℕ) : ℕ → ℕ → ℕ → Bool
  | 0, i, j => decide (j = i)
  | n + 1, i, j => (bonds i).any (fun m => walkB bonds n m j)

/-- `j` is reachable from `i` along covalent bonds within at most `h` hops. -/
def reachWithin (bonds : ℕ → List ℕ) (h : ℕ) (i j : ℕ) : Bool :=
  (List.range (h + 1)).any (fun n => walkB bonds n i j)

/-! ## The parsing loop of `ligand::ligand`

Input lines are abstracted to the information the dispatch reads: an
`ATOM`/`HETATM` line carries whether the atom is a hydrogen, whether its
AutoDock type is supported, and its serial number; `BRANCH`/`ENDBRANCH`
carry the rotor serial; every other prefix is inert.  The C++ serial-number
search (`for (i = habegin; true; ++i)`) runs past the end of the vector when
the serial is absent (undefined behavior); this is modelled by the distinct
outcome `stuck`, which is not an exception. -/

/-- An abstracted input line. -/
inductive PLine where
  | atomLine (isHydrogen : Bool) (supported : Bool) (serial : ℕ)
  | branchLine (x : ℕ)
  | endBranchLine (y : ℕ)
  | otherLine
deriving DecidableEq, Repr

/-- The two `parsing_error` kinds thrown by the construction loop
(`ligand.cpp` lines 61 and 128). -/
inductive PErr where
  | unsupportedAtomType
  | emptyBranch
deriving DecidableEq, Repr

/-- A frame as tracked by the parsing loop. -/
structure PFrame where
  parent : ℕ
  rotorX : ℕ
  rotorY : ℕ
  habegin : ℕ
  active : Bool
deriving DecidableEq, Repr

instance : Inhabited PFrame := ⟨⟨0, 0, 0, 0, true⟩⟩

/-- Parser state: the frame stack is implicit in the `parent` chain from
`current`, as in the source. -/
structure PState where
  frames : List PFrame
  numbers : List ℕ
  current : ℕ
deriving DecidableEq, Repr

/-- Parse outcome: a final state, a `parsing_error`, or the modelled
undefined behavior of a failed serial search. -/
inductive PRes where
  | ok (st : PState)
  | perr (k : PErr)
  | stuck
deriving DecidableEq, Repr

/-- The initial state: the ROOT frame with dummy parent and rotor X and
`rotorY = 0` (`frames.push_back(frame(0, 0, 0, 0))`). -/
def initPState : PState := ⟨[⟨0, 0, 0, 0, true⟩], [], 0⟩

/-- First index `>= start` holding serial `x` in the numbers vector
(the serial search loops of the source). -/
def findSerial (numbers : List ℕ) (start : ℕ) (x : ℕ) : Option ℕ :=
  (List.range' start (numbers.length - start)).find? (fun i => numbers.getD i (x + 1) = x)

/-- The state after a heavy `ATOM`/`HETATM` line: the serial is appended
(`numbers.push_back`, `heavy_atoms.push_back`). -/
def atomState (st : PState) (serial : ℕ) : PState :=
  { st with numbers := st.numbers ++ [serial] }

/-- The frame pushed by a `BRANCH` line: parent is the current frame,
rotor X is the found serial index, `habegin` is the current heavy count. -/
def newBranchFrame (st : PState) (i : ℕ) : PFrame :=
  ⟨st.current, i, 0, st.numbers.length, true⟩

/-- The state after a `BRANCH` line: the new frame is appended and becomes
current. -/
def branchState (st : PState) (i : ℕ) : PState :=
  { frames := st.frames ++ [newBranchFrame st i]
    numbers := st.numbers
    current := (st.frames ++ [newBranchFrame st i]).length - 1 }

/-- The current frame updated by an `ENDBRANCH` line: rotor Y is the found
index; the frame is marked inactive when it is the globally last frame and
owns exactly one heavy atom. -/
def closedFrame (st : PState) (i : ℕ) : PFrame :=
  { parent := (st.frames.getD st.current default).parent
    rotorX := (st.frames.getD st.current default).rotorX
    rotorY := i
    habegin := (st.frames.getD st.current default).habegin
    active := !(decide (st.current = st.frames.length - 1) &&
      decide ((st.frames.getD st.current default).habegin + 1 = st.numbers.length)) }

/-- The state after an `ENDBRANCH` line: the current frame is closed and
the parent becomes current. -/
def endBranchState (st : PState) (i : ℕ) : PState :=
  { frames := st.frames.set st.current (closedFrame st i)
    numbers := st.numbers
    current := (st.frames.getD st.current default).parent }

/-- One step of the parsing loop of `ligand::ligand`. -/
def pstep (st : PState) (l : PLine) : PRes :=
  match l with
  | .atomLine isHydrogen supported serial =>
    if ¬supported then .perr .unsupportedAtomType
    else if isHydrogen then .ok st
    else .ok (atomState st serial)
  | .branchLine x =>
    match findSerial st.numbers (st.frames.getD st.current default).habegin x with
    | none => .stuck
    | some i => .ok (branchState st i)
  | .endBranchLine y =>
    if (st.frames.getD st.current default).habegin = st.numbers.length then
      .perr .emptyBranch
    else
      match findSerial st.numbers (st.frames.getD st.current default).habegin y with
      | none => .stuck
      | some i => .ok (endBranchState st i)
  | .otherLine => .ok st

/-- Run the parsing loop over a line list from a given state. -/
def prun : List PLine → PState → PRes
  | [], st => .ok st
  | l :: rest, st =>
    match pstep st l with
    | .ok st' => prun rest st'
    | r => r

/-- Parse an input from the initial state (`ligand::ligand`'s line loop). -/
def parseLigand (ls : List PLine) : PRes := prun ls initPState

/-- Reference error scan tracking only the open-branch `habegin` stack and
the heavy-atom count: reports `unsupportedAtomType` at an unsupported
`ATOM`/`HETATM` line, `emptyBranch` at an `ENDBRANCH` whose innermost open
range holds no heavy atom, and no error otherwise (in particular, unmatched
`BRANCH`/`ENDBRANCH` lines report nothing). -/
def checkGo : List PLine → List ℕ → ℕ → Option PErr
  | [], _, _ => none
  | l :: rest, stack, heavy =>
    match l with
    | .atomLine isHydrogen supported _ =>
      if ¬supported then some .unsupportedAtomType
      else checkGo rest stack (if isHydrogen then heavy else heavy + 1)
    | .branchLine _ => checkGo rest (heavy :: stack) heavy
    | .endBranchLine _ =>
      match stack with
      | [] => none
      | h :: rest' =>
        if h = heavy then some .emptyBranch
        else checkGo rest (if rest' = [] then [h] else rest') heavy
    | .otherLine => checkGo rest stack heavy

/-- Reference error scan of a whole input. -/
def checkLigand (ls : List PLine) : Option PErr := checkGo ls [0] 0

/-- `StackRel fs c stack` relates a parser frame table and current index to
the reference scan's stack: `stack` lists the `habegin` values along the
parent chain from the current frame up to the root. -/
inductive StackRel (fs : List PFrame) : ℕ → List ℕ → Prop where
  | root (h : 0 < fs.length) :
      StackRel fs 0 [(fs.getD 0 default).habegin]
  | cons (c : ℕ) (rest : List ℕ) (h0 : c ≠ 0) (hlt : c < fs.length)
      (hrec : StackRel fs (fs.getD c default).parent rest) :
      StackRel fs c ((fs.getD c default).habegin :: rest)

/-- The full simulation relation between a parser state and a reference
scan state: the heavy count matches the serial vector, the root frame's
dummy parent is itself, and the stack relation holds at the current
frame. -/
def PSim (st : PState) (stack : List ℕ) (heavy : ℕ) : Prop :=
  heavy = st.numbers.length ∧ (st.frames.getD 0 default).parent = 0 ∧
  StackRel st.frames st.current stack

/-! ## `monte_carlo_task`

Randomness model: the `mt19937_64` engine and the standard distributions
are not among the sources; each distribution call is modelled as consuming
one value from an abstract draw stream (`draws : ℕ → ℚ` for real-valued
draws, `idraws : ℕ → ℕ` for the entity draw, reduced modulo the entity
count to reflect the distribution's support), with a running position
threaded exactly along the source's consumption order (in particular the
Metropolis `uniform_01` draw happens only when `delta <= 0`, matching the
short-circuit `||`).  The irrational primitives are oracles: `v3q` models
`vec3_to_qtn4` (rotation-vector to quaternion, an axis-angle conversion per
the spec), `nrm4` models the 4-vector `normalize` of `array.cpp` (square
root), and `ex` models `exp`. -/

/-- The line-search trial conformation `c2 = c1 + alpha * p`
(`monte_carlo_task.cpp` lines 131-138): position moved by
`alpha * (p[0], p[1], p[2])`, orientation left-multiplied by
`vec3_to_qtn4(alpha * (p[3], p[4], p[5]))`, torsions moved by
`alpha * p[6+i]`. -/
def lsStepConf (v3q : V3 → V4) (c1 : Conformation) (alpha : ℚ) (p : Change)
    (nT : ℕ) : Conformation :=
  { position := vadd c1.position (smul alpha ⟨p.get 0, p.get 1, p.get 2⟩)
    orientation := qmul (v3q (smul alpha ⟨p.get 3, p.get 4, p.get 5⟩)) c1.orientation
    torsions := (List.range nT).map
      (fun i => c1.torsions.getD i 0 + alpha * p.get (6 + i)) }

/-- Flat dot product over `num_variables` entries (`pg = sum p[i] * g[i]`). -/
def dotChange (p g : Change) (nv : ℕ) : ℚ :=
  ((List.range nv).map (fun i => p.get i * g.get i)).sum

/-- A `Change` built from flat values with the
`[0..3) position, [3..6) orientation, [6..) torsions` convention. -/
def Change.ofFlat (nT : ℕ) (v : ℕ → ℚ) : Change :=
  ⟨⟨v 0, v 1, v 2⟩, ⟨v 3, v 4, v 5⟩, (List.range nT).map (fun i => v (6 + i))⟩

/-- `num_alphas`: the number of line-search trials. -/
def numAlphas : ℕ := 5

/-- The scratch values the source passes by reference into `evaluate`
during the search (stale on rejected calls and never read then). -/
def scratchChange : Change := ⟨zero3, zero3, []⟩

/-- The line-search loop (`monte_carlo_task.cpp` lines 124-151): `alpha`
starts at `1` and is multiplied by `0.1` at the head of each trial; the
trial conformation is evaluated under the Armijo bound
`e1 + 0.0001 * alpha * pg1`; the trial is accepted when the evaluator
succeeds and `pg2 >= 0.9 * pg1`; after `numAlphas` failed trials the search
reports failure.  Returns the trial index with the accepted data. -/
def lineSearchGo (lig : Lig) (tr : Trig) (sf : SF) (b : Box) (maps : GridMaps)
    (v3q : V3 → V4) (c1 : Conformation) (e1 pg1 : ℚ) (p : Change) (nT nv : ℕ) :
    ℚ → ℕ → ℕ → Option (ℕ × ℚ × Conformation × ℚ × ℚ × Change)
  | _, _, 0 => none
  | alpha, t, rem + 1 =>
    let a := alpha * (1 / 10)
    let c2 := lsStepConf v3q c1 a p nT
    let r := lig.evaluate tr c2 sf b maps (e1 + (1 / 10000) * a * pg1) 0 0 scratchChange
    if r.1 then
      let g2 := r.2.2.2
      let pg2 := dotChange p g2 nv
      if pg2 ≥ (9 / 10) * pg1 then some (t, a, c2, r.2.1, r.2.2.1, g2)
      else lineSearchGo lig tr sf b maps v3q c1 e1 pg1 p nT nv a (t + 1) rem
    else lineSearchGo lig tr sf b maps v3q c1 e1 pg1 p nT nv a (t + 1) rem

/-- The full line search: `alpha = 1`, `numAlphas` trials. -/
def lineSearch (lig : Lig) (tr : Trig) (sf : SF) (b : Box) (maps : GridMaps)
    (v3q : V3 → V4) (c1 : Conformation) (e1 pg1 : ℚ) (p : Change) (nT nv : ℕ) :
    Option (ℕ × ℚ × Conformation × ℚ × ℚ × Change) :=
  lineSearchGo lig tr sf b maps v3q c1 e1 pg1 p nT nv 1 0 numAlphas

/-- The identity inverse Hessian, read through the permissive triangular
indexer (the packed triangular store is embedded as a symmetric two-index
function; the update term below is symmetric in its indices, so the packed
write at `mr(i, j)`, `i <= j`, together with reads through `mp`, is exactly
this function representation). -/
def identityHessian : ℕ → ℕ → ℚ := fun i j => if i = j then 1 else 0

/-- The BFGS secant update of the inverse Hessian
(`monte_carlo_task.cpp` lines 156-178). -/
def bfgsUpdate (h : ℕ → ℕ → ℚ) (g1 g2 p : Change) (alpha : ℚ) (nv : ℕ) :
    ℕ → ℕ → ℚ :=
  let y := fun i => g2.get i - g1.get i
  let mhy := fun i => -(((List.range nv).map (fun j => h i j * y j)).sum)
  let yhy := -(((List.range nv).map (fun i => y i * mhy i)).sum)
  let yp := ((List.range nv).map (fun i => y i * p.get i)).sum
  let ryp := 1 / yp
  let pco := ryp * (ryp * yhy + alpha)
  let pf := fun i => p.get i
  fun i j => h i j + ryp * (mhy i * pf j + mhy j * pf i) + pco * pf i * pf j

/-- The BFGS inner loop (`monte_carlo_task.cpp` lines 105-185), with an
explicit fuel bound standing for the unbounded `while (true)` (the source
exits only when the line search fails).  Returns the final
`(c1, e1, f1, g1)`. -/
def bfgsLoop (lig : Lig) (tr : Trig) (sf : SF) (b : Box) (maps : GridMaps)
    (v3q : V3 → V4) (nT nv : ℕ) :
    ℕ → Conformation × ℚ × ℚ × Change → (ℕ → ℕ → ℚ) →
    Conformation × ℚ × ℚ × Change
  | 0, st, _ => st
  | fu + 1, (c1, e1, f1, g1), h =>
    let p := Change.ofFlat nT
      (fun i => -(((List.range nv).map (fun j => h i j * g1.get j)).sum))
    let pg1 := dotChange p g1 nv
    match lineSearch lig tr sf b maps v3q c1 e1 pg1 p nT nv with
    | none => (c1, e1, f1, g1)
    | some (_, a, c2, e2, f2, g2) =>
      bfgsLoop lig tr sf b maps v3q nT nv fu (c2, e2, f2, g2)
        (bfgsUpdate h g1 g2 p a nv)

/-- One random conformation draw (`monte_carlo_task.cpp` lines 34-39):
three box draws for the position, `normalize` of four normal draws for the
orientation, one `[-pi, pi]` draw per active torsion; consumes `7 + nT`
stream positions. -/
def sampleConf (nrm4 : V4 → V4) (draws : ℕ → ℚ) (n nT : ℕ) : Conformation :=
  { position := ⟨draws n, draws (n + 1), draws (n + 2)⟩
    orientation := nrm4 ⟨draws (n + 3), draws (n + 4), draws (n + 5), draws (n + 6)⟩
    torsions := (List.range nT).map (fun i => draws (n + 7 + i)) }

/-- The initial-conformation loop (`monte_carlo_task.cpp` lines 31-41): up
to a given number of random conformations, stopping at the first one the
evaluator accepts; reports the accepted trial index, conformation,
`(e0, f0, g0)`, and the stream position after the accepted draw. -/
def initLoopGo (lig : Lig) (tr : Trig) (sf : SF) (b : Box) (maps : GridMaps)
    (nrm4 : V4 → V4) (draws : ℕ → ℚ) (eUB : ℚ) (nT : ℕ) :
    ℕ → ℕ → ℕ → Option (ℕ × Conformation × ℚ × ℚ × Change × ℕ)
  | _, _, 0 => none
  | i, n, rem + 1 =>
    let c0 := sampleConf nrm4 draws n nT
    let r := lig.evaluate tr c0 sf b maps eUB 0 0 scratchChange
    if r.1 then some (i, c0, r.2.1, r.2.2.1, r.2.2.2, n + 7 + nT)
    else initLoopGo lig tr sf b maps nrm4 draws eUB nT (i + 1) (n + 7 + nT) rem

/-- The initialization phase: at most 1000 random conformations. -/
def initLoop (lig : Lig) (tr : Trig) (sf : SF) (b : Box) (maps : GridMaps)
    (nrm4 : V4 → V4) (draws : ℕ → ℚ) (eUB : ℚ) (nT : ℕ) :
    Option (ℕ × Conformation × ℚ × ℚ × Change × ℕ) :=
  initLoopGo lig tr sf b maps nrm4 draws eUB nT 0 0 1000

/-- One mutation of `c0` (`monte_carlo_task.cpp` lines 81-93): a torsion
entity redraws one torsion, the position entity shifts the position by a
`(-1,1)` cube draw, the orientation entity left-multiplies the orientation
by `vec3_to_qtn4(0.01 * (-1,1) cube draw)`.  Returns the mutated
conformation and the advanced stream position. -/
def mutateConf (v3q : V3 → V4) (draws : ℕ → ℚ) (nT : ℕ) (c0 : Conformation)
    (entity : ℕ) (n : ℕ) : Conformation × ℕ :=
  if entity < nT then
    ({ c0 with torsions := c0.torsions.set entity (draws n) }, n + 1)
  else if entity = nT then
    ({ c0 with position := vadd c0.position ⟨draws n, draws (n + 1), draws (n + 2)⟩ },
     n + 3)
  else
    let q := qmul (v3q (smul (1 / 100) ⟨draws n, draws (n + 1), draws (n + 2)⟩))
      c0.orientation
    ({ c0 with orientation := q }, n + 3)

/-- The mutation retry loop (`monte_carlo_task.cpp` lines 73-95): mutate a
fresh copy of `c0` until the evaluator accepts, with an explicit fuel bound
standing for the unbounded `do`-`while`. -/
def mutateLoop (lig : Lig) (tr : Trig) (sf : SF) (b : Box) (maps : GridMaps)
    (v3q : V3 → V4) (draws : ℕ → ℚ) (idraws : ℕ → ℕ) (eUB : ℚ)
    (nT nE : ℕ) (c0 : Conformation) :
    ℕ → ℕ → Option (Conformation × ℚ × ℚ × Change × ℕ)
  | 0, _ => none
  | fu + 1, n =>
    let entity := idraws n % nE
    let cn := mutateConf v3q draws nT c0 entity (n + 1)
    let r := lig.evaluate tr cn.1 sf b maps eUB 0 0 scratchChange
    if r.1 then some (cn.1, r.2.1, r.2.2.1, r.2.2.2, cn.2)
    else mutateLoop lig tr sf b maps v3q draws idraws eUB nT nE c0 fu cn.2

/-- Sum of squared heavy-atom displacements between two results
(the clustering metric of the result pool). -/
def ssd (r s : Res) : ℚ :=
  ((List.zip r.heavy s.heavy).map (fun q => distSqr q.1 q.2)).sum

/-- Insert a result before the first entry with larger energy. -/
def insertSorted : List Res → Res → List Res
  | [], r => [r]
  | s :: rest, r => if r.e < s.e then r :: s :: rest else s :: insertSorted rest r

/-- The bounded cluster-deduplicated pool insertion
(`add_to_result_container`).  Modelled from the spec: the function's source
is not among the files; the spec prescribes discarding a candidate whose
sum-of-squared-displacement against some existing entry of no larger energy
is below `required_square_error`, otherwise inserting at the sorted position
and dropping the highest-energy entry on overflow. -/
def add_to_result_container (results : List Res) (r : Res) (cap : ℕ)
    (rse : ℚ) : List Res :=
  if results.any (fun s => decide (s.e ≤ r.e) && decide (ssd s r < rse)) then results
  else (insertSorted results r).take cap

/-- The Metropolis acceptance step (`monte_carlo_task.cpp` lines 187-202),
with the acceptance test already decided.  On acceptance, when
`e1 < best_e` or the pool has spare capacity, the composed result is
offered to the pool and `best_e` is reassigned to `e0` when `e1 < best_e`
(the source's line 196: `if (e1 < best_e) best_e = e0;`); then
`(c0, e0) <- (c1, e1)`. -/
def metropolisAccept (lig : Lig) (tr : Trig) (cap : ℕ) (rse : ℚ)
    (results : List Res) (bestE e0 : ℚ) (c0 : Conformation)
    (c1 : Conformation) (e1 f1 : ℚ) (accepted : Bool) :
    List Res × ℚ × ℚ × Conformation :=
  if accepted then
    if e1 < bestE ∨ results.length < cap then
      (add_to_result_container results (lig.compose_result tr e1 f1 c1) cap rse,
       if e1 < bestE then e0 else bestE, e1, c1)
    else (results, bestE, e1, c1)
  else (results, bestE, e0, c0)

/-- The Monte Carlo main loop (`monte_carlo_task.cpp` lines 67-203): per
iteration, the mutation retry loop, the BFGS descent, and the Metropolis
step; the `uniform_01` draw is consumed only when `delta <= 0`
(short-circuit).  If the mutation retry fuel runs out (the source would
spin forever) the loop stops with the current results. -/
def mcLoopGo (lig : Lig) (tr : Trig) (sf : SF) (b : Box) (maps : GridMaps)
    (v3q : V3 → V4) (ex : ℚ → ℚ) (draws : ℕ → ℚ) (idraws : ℕ → ℕ)
    (eUB rse : ℚ) (nT nE nv cap mutFuel bfgsFuel : ℕ) :
    ℕ → List Res × ℚ × ℚ × Conformation → ℕ → List Res
  | 0, st, _ => st.1
  | it + 1, (results, bestE, e0, c0), n =>
    match mutateLoop lig tr sf b maps v3q draws idraws eUB nT nE c0 mutFuel n with
    | none => results
    | some (c1m, e1m, f1m, g1m, n1) =>
      let bf := bfgsLoop lig tr sf b maps v3q nT nv bfgsFuel (c1m, e1m, f1m, g1m)
        identityHessian
      let c1 := bf.1
      let e1 := bf.2.1
      let f1 := bf.2.2.1
      let delta := e0 - e1
      let accepted := if delta > 0 then true else decide (draws n1 < ex delta)
      let n2 := if delta > 0 then n1 else n1 + 1
      let st' := metropolisAccept lig tr cap rse results bestE e0 c0 c1 e1 f1 accepted
      mcLoopGo lig tr sf b maps v3q ex draws idraws eUB rse nT nE nv cap mutFuel
        bfgsFuel it st' n2

/-- `monte_carlo_task`: constants per the source
(`num_mc_iterations = 100 * num_heavy_atoms`,
`num_entities = 2 + num_active_torsions`,
`num_variables = 6 + num_active_torsions`,
`e_upper_bound = 4 * num_heavy_atoms`,
`required_square_error = num_heavy_atoms`); the initialization loop tries
up to 1000 random conformations and the task returns its input results
untouched when all of them are rejected; otherwise the main loop runs for
`num_mc_iterations` iterations.  `mutFuel` and `bfgsFuel` bound the two
source loops that have no intrinsic bound. -/
def monte_carlo_task (lig : Lig) (tr : Trig) (sf : SF) (b : Box)
    (maps : GridMaps) (v3q : V3 → V4) (nrm4 : V4 → V4) (ex : ℚ → ℚ)
    (draws : ℕ → ℚ) (idraws : ℕ → ℕ) (cap mutFuel bfgsFuel : ℕ)
    (results0 : List Res) : List Res :=
  let nT := lig.numActiveTorsions
  let nE := 2 + nT
  let nv := 6 + nT
  let eUB : ℚ := (4 * lig.numHeavyAtoms : ℕ)
  let rse : ℚ := (lig.numHeavyAtoms : ℕ)
  match initLoop lig tr sf b maps nrm4 draws eUB nT with
  | none => results0
  | some (_, c0, e0, _, _, n) =>
    mcLoopGo lig tr sf b maps v3q ex draws idraws eUB rse nT nE nv cap mutFuel
      bfgsFuel (100 * lig.numHeavyAtoms) (results0, e0, e0, c0) n

/-! ## Concrete instances used to exercise the theorems -/

/-- A heavy atom at the local origin. -/
def demoAtom : Atom := ⟨zero3, 0, 1⟩

/-- A root frame owning one heavy atom. -/
def demoRootFrm : Frm := ⟨0, 0, 0, 0, 1, 0, 0, true, zero3, zero3⟩

/-- An inactive branch frame owning exactly its rotor Y atom. -/
def demoBranchFrm : Frm := ⟨0, 0, 1, 1, 2, 0, 0, false, ⟨1, 0, 0⟩, ⟨1, 0, 0⟩⟩

/-- A rigid single-frame ligand. -/
def demoLig1 : Lig := ⟨[demoRootFrm], [demoAtom], [], [], 0⟩

/-- A two-frame ligand whose branch frame is inactive. -/
def demoLig2 : Lig := ⟨[demoRootFrm, demoBranchFrm], [demoAtom, demoAtom], [], [], 0⟩

/-- A trigonometric oracle. -/
def demoTrig : Trig := ⟨fun _ => 0, fun _ => 1⟩

/-- A box spanning `[0, 4)^3` with unit granularity. -/
def demoBox : Box := ⟨⟨0, 0, 0⟩, ⟨4, 4, 4⟩, 1⟩

/-- All-zero grid maps. -/
def demoMaps : GridMaps := fun _ _ => 0

/-- A zero scoring function with the usual cutoff. -/
def demoSF : SF := ⟨fun _ _ => (0, 0), 64⟩

/-- A pose inside the demo box. -/
def demoConf : Conformation := ⟨⟨1, 1, 1⟩, ⟨1, 0, 0, 0⟩, []⟩

/-- A pose outside the demo box. -/
def demoConfOut : Conformation := ⟨⟨5, 5, 5⟩, ⟨1, 0, 0, 0⟩, []⟩

/-- A rotation-vector-to-quaternion oracle (exact at the zero vector). -/
def demoV3Q : V3 → V4 := fun _ => ⟨1, 0, 0, 0⟩

/-- A 4-vector normalization oracle. -/
def demoNrm4 : V4 → V4 := fun _ => ⟨1, 0, 0, 0⟩

/-- An `exp` oracle. -/
def demoEx : ℚ → ℚ := fun _ => 1

/-- A constant real draw stream. -/
def demoDraws : ℕ → ℚ := fun _ => 1

/-- A constant integer draw stream. -/
def demoIdraws : ℕ → ℕ := fun _ => 0

/-- A draw stream whose position draws land outside the demo box. -/
def demoDraws5 : ℕ → ℚ := fun _ => 5

/-! ## Reference form of the line search (for the trial characterization) -/

/-- Data of line-search trial `k`: the step `alpha = 0.1^(k+1)` (alpha
starts at 1 and is multiplied by 0.1 at the head of every trial), the
stepped conformation, and the evaluator outputs under the Armijo bound. -/
def lsTrial (lig : Lig) (tr : Trig) (sf : SF) (b : Box) (maps : GridMaps)
    (v3q : V3 → V4) (c1 : Conformation) (e1 pg1 : ℚ) (p : Change) (nT : ℕ)
    (k : ℕ) : ℕ × ℚ × Conformation × ℚ × ℚ × Change :=
  let a := (1 / 10 : ℚ) ^ (k + 1)
  let c2 := lsStepConf v3q c1 a p nT
  let r := lig.evaluate tr c2 sf b maps (e1 + (1 / 10000) * a * pg1) 0 0 scratchChange
  (k, a, c2, r.2.1, r.2.2.1, r.2.2.2)

/-- Acceptance of line-search trial `k`: the evaluator accepts the stepped
conformation under the Armijo bound `e1 + 1e-4 * alpha * pg1` and the
curvature condition `p . g2 >= 0.9 * pg1` holds. -/
def lsAcceptB (lig : Lig) (tr : Trig) (sf : SF) (b : Box) (maps : GridMaps)
    (v3q : V3 → V4) (c1 : Conformation) (e1 pg1 : ℚ) (p : Change) (nT nv : ℕ)
    (k : ℕ) : Bool :=
  let a := (1 / 10 : ℚ) ^ (k + 1)
  let c2 := lsStepConf v3q c1 a p nT
  let r := lig.evaluate tr c2 sf b maps (e1 + (1 / 10000) * a * pg1) 0 0 scratchChange
  r.1 && decide (dotChange p r.2.2.2 nv ≥ (9 / 10) * pg1)

/-- Reference line search: the first accepted trial among `numAlphas`
trials, with its data; failure when no trial is accepted. -/
def specLineSearch (lig : Lig) (tr : Trig) (sf : SF) (b : Box)
    (maps : GridMaps) (v3q : V3 → V4) (c1 : Conformation) (e1 pg1 : ℚ)
    (p : Change) (nT nv : ℕ) : Option (ℕ × ℚ × Conformation × ℚ × ℚ × Change) :=
  ((List.range numAlphas).find? (lsAcceptB lig tr sf b maps v3q c1 e1 pg1 p nT nv)).map
    (lsTrial lig tr sf b maps v3q c1 e1 pg1 p nT)

/-- Acceptance of initialization trial `i`: the evaluator accepts the
`i`-th sampled conformation (trial `i` reads stream positions
`[i*(7+nT), (i+1)*(7+nT))`). -/
def initAcceptB (lig : Lig) (tr : Trig) (sf : SF) (b : Box) (maps : GridMaps)
    (nrm4 : V4 → V4) (draws : ℕ → ℚ) (eUB : ℚ) (nT : ℕ) (i : ℕ) : Bool :=
  (lig.evaluate tr (sampleConf nrm4 draws (i * (7 + nT)) nT) sf b maps eUB
    0 0 scratchChange).1

/-- Data returned for an accepted initialization trial `i`. -/
def initTrialData (lig : Lig) (tr : Trig) (sf : SF) (b : Box)
    (maps : GridMaps) (nrm4 : V4 → V4) (draws : ℕ → ℚ) (eUB : ℚ) (nT : ℕ)
    (i : ℕ) : ℕ × Conformation × ℚ × ℚ × Change × ℕ :=
  let c0 := sampleConf nrm4 draws (i * (7 + nT)) nT
  let r := lig.evaluate tr c0 sf b maps eUB 0 0 scratchChange
  (i, c0, r.2.1, r.2.2.1, r.2.2.2, i * (7 + nT) + 7 + nT)

/-! ## Helper lemmas -/

/-- Adding the zero vector is the identity. -/
theorem vadd_zero3 (a : V3) : vadd a zero3 = a := by
  simp [vadd, zero3]

/-- A matrix applied to the zero vector gives the zero vector. -/
theorem mvmul_zero3 (m : M3) : mvmul m zero3 = zero3 := by
  simp [mvmul, zero3]

/-- The squared norm of a quaternion product is the product of the squared
norms. -/
theorem normSqr4_qmul (a b : V4) : normSqr4 (qmul a b) = normSqr4 a * normSqr4 b := by
  simp only [normSqr4, qmul]
  ring

/-! ## Well-formedness accessors -/

/-- A well-formed ligand has at least one frame. -/
theorem wf_nf_pos (lig : Lig) (h : lig.wf = true) : 1 ≤ lig.numFrames := by
  simp only [Lig.wf, Bool.and_eq_true, decide_eq_true_eq] at h
  exact h.1.1.1.1.1.1

/-- The root frame of a well-formed ligand is active. -/
theorem wf_root_active (lig : Lig) (h : lig.wf = true) :
    (lig.frameAt 0).active = true := by
  simp only [Lig.wf, Bool.and_eq_true, decide_eq_true_eq] at h
  exact h.1.1.1.1.1.2

/-- The root frame of a well-formed ligand starts the heavy-atom vector. -/
theorem wf_root_habegin (lig : Lig) (h : lig.wf = true) :
    (lig.frameAt 0).habegin = 0 := by
  simp only [Lig.wf, Bool.and_eq_true, decide_eq_true_eq] at h
  exact h.1.1.1.1.2

/-- Every non-root frame of a well-formed ligand has a smaller, active
parent. -/
theorem wf_branch (lig : Lig) (h : lig.wf = true) {k : ℕ} (h1 : 1 ≤ k)
    (h2 : k < lig.numFrames) :
    (lig.frameAt k).parent < k ∧
    (lig.frameAt (lig.frameAt k).parent).active = true := by
  simp only [Lig.wf, Bool.and_eq_true, decide_eq_true_eq, List.all_eq_true] at h
  have hm : k ∈ List.range' 1 (lig.numFrames - 1) := by
    refine List.mem_range'_1.mpr ⟨h1, ?_⟩
    omega
  have := h.1.1.1.2 k hm
  simp only [Bool.and_eq_true, decide_eq_true_eq] at this
  exact ⟨this.1.1, this.1.2⟩

/-- An inactive frame of a well-formed ligand owns exactly its rotor Y
atom, whose local coordinate is zero. -/
theorem wf_inactive (lig : Lig) (h : lig.wf = true) {k : ℕ} (h1 : 1 ≤ k)
    (h2 : k < lig.numFrames) (ha : (lig.frameAt k).active = false) :
    (lig.frameAt k).haend = (lig.frameAt k).habegin + 1 ∧
    (lig.frameAt k).rotorY = (lig.frameAt k).habegin ∧
    (lig.atomAt (lig.frameAt k).rotorY).coordinate = zero3 := by
  simp only [Lig.wf, Bool.and_eq_true, decide_eq_true_eq, List.all_eq_true] at h
  have hm : k ∈ List.range' 1 (lig.numFrames - 1) := by
    refine List.mem_range'_1.mpr ⟨h1, ?_⟩
    omega
  have hk := h.1.1.1.2 k hm
  simp only [Bool.and_eq_true, decide_eq_true_eq, ha, if_false, Bool.false_eq_true] at hk
  exact ⟨hk.2.1.1, hk.2.1.2, hk.2.2⟩

/-- The heavy-atom range of each frame of a well-formed ligand is ordered. -/
theorem wf_le (lig : Lig) (h : lig.wf = true) {k : ℕ} (hk : k < lig.numFrames) :
    (lig.frameAt k).habegin ≤ (lig.frameAt k).haend := by
  simp only [Lig.wf, Bool.and_eq_true, decide_eq_true_eq, List.all_eq_true] at h
  exact h.1.1.2 k (List.mem_range.mpr hk)

/-- Consecutive frames of a well-formed ligand chain their heavy-atom
ranges. -/
theorem wf_chain (lig : Lig) (h : lig.wf = true) {k : ℕ}
    (hk : k < lig.numFrames - 1) :
    (lig.frameAt (k + 1)).habegin = (lig.frameAt k).haend := by
  simp only [Lig.wf, Bool.and_eq_true, decide_eq_true_eq, List.all_eq_true] at h
  exact h.1.2 k (List.mem_range.mpr hk)

/-- The last frame of a well-formed ligand closes the heavy-atom vector. -/
theorem wf_last (lig : Lig) (h : lig.wf = true) :
    (lig.frameAt (lig.numFrames - 1)).haend = lig.numHeavyAtoms := by
  simp only [Lig.wf, Bool.and_eq_true, decide_eq_true_eq] at h
  exact h.2

/-- For `j < k`, frame `j`'s heavy-atom range ends no later than frame `k`'s
begins. -/
theorem haend_le_habegin (lig : Lig) (h : lig.wf = true) :
    ∀ {j k : ℕ}, j < k → k < lig.numFrames →
      (lig.frameAt j).haend ≤ (lig.frameAt k).habegin := by
  intro j k
  induction k with
  | zero => omega
  | succ m ih =>
    intro hjk hk
    rcases Nat.lt_succ_iff_lt_or_eq.mp hjk with hlt | heq
    · have h1 := ih hlt (by omega)
      have h2 := wf_le lig h (k := m) (by omega)
      have h3 := wf_chain lig h (k := m) (by omega)
      omega
    · subst heq
      have h3 := wf_chain lig h (k := j) (by omega)
      omega

/-- `ownerGo` returns the offset of the first list entry whose range
contains `i`. -/
theorem ownerGo_eq (lo hi : Frm → ℕ) (i : ℕ) :
    ∀ (fs : List Frm) (k0 j : ℕ), j < fs.length →
      (lo (fs.getD j default) ≤ i ∧ i < hi (fs.getD j default)) →
      (∀ m, m < j → ¬(lo (fs.getD m default) ≤ i ∧ i < hi (fs.getD m default))) →
      ownerGo lo hi i fs k0 = k0 + j := by
  intro fs
  induction fs with
  | nil =>
    intro k0 j hj
    simp at hj
  | cons f rest ih =>
    intro k0 j hj hpred hbefore
    cases j with
    | zero =>
      have hf : (f :: rest).getD 0 default = f := rfl
      rw [hf] at hpred
      simp [ownerGo, if_pos hpred]
    | succ j' =>
      have h0 : ¬(lo f ≤ i ∧ i < hi f) := by
        have := hbefore 0 (Nat.succ_pos j')
        simpa using this
      have step : ownerGo lo hi i (f :: rest) k0 = ownerGo lo hi i rest (k0 + 1) := by
        simp [ownerGo, if_neg h0]
      rw [step]
      have hrec := ih (k0 + 1) j' (by simpa using hj)
        (by simpa using hpred)
        (fun m hm => by
          have := hbefore (m + 1) (by omega)
          simpa using this)
      omega

/-- The owning frame computed for an atom inside frame `k`'s range is `k`. -/
theorem frameOf_eq (lig : Lig) (h : lig.wf = true) {k i : ℕ}
    (hk : k < lig.numFrames) (hbeg : (lig.frameAt k).habegin ≤ i)
    (hend : i < (lig.frameAt k).haend) : lig.frameOf i = k := by
  have := ownerGo_eq Frm.habegin Frm.haend i lig.frames 0 k hk ⟨hbeg, hend⟩
    (fun m hm => by
      intro hc
      have hle : (lig.frames.getD m default).haend ≤
          (lig.frames.getD k default).habegin := haend_le_habegin lig h hm hk
      have hbeg' : (lig.frames.getD k default).habegin ≤ i := hbeg
      omega)
  simpa [Lig.frameOf] using this

/-- The fuel of `evalFrameGo` is irrelevant once it covers the frame
index. -/
theorem evalFrameGo_congr (lig : Lig) (tr : Trig) (conf : Conformation) :
    ∀ (k fu fu' : ℕ), k ≤ fu → k ≤ fu' →
      evalFrameGo lig tr conf fu k = evalFrameGo lig tr conf fu' k := by
  intro k
  induction k using Nat.strong_induction_on with
  | _ k ih =>
    intro fu fu' hfu hfu'
    cases k with
    | zero => cases fu <;> cases fu' <;> rfl
    | succ k' =>
      obtain ⟨a, rfl⟩ : ∃ a, fu = a + 1 := ⟨fu - 1, by omega⟩
      obtain ⟨b, rfl⟩ : ∃ b, fu' = b + 1 := ⟨fu' - 1, by omega⟩
      simp only [evalFrameGo]
      by_cases hp : (lig.frameAt (k' + 1)).parent < k' + 1
      · simp only [if_pos hp]
        rw [ih (lig.frameAt (k' + 1)).parent hp a b (by omega) (by omega)]
      · simp only [if_neg hp]

/-- The fuel of `composeFrameGo` is irrelevant once it covers the frame
index. -/
theorem composeFrameGo_congr (lig : Lig) (tr : Trig) (conf : Conformation) :
    ∀ (k fu fu' : ℕ), k ≤ fu → k ≤ fu' →
      composeFrameGo lig tr conf fu k = composeFrameGo lig tr conf fu' k := by
  intro k
  induction k using Nat.strong_induction_on with
  | _ k ih =>
    intro fu fu' hfu hfu'
    cases k with
    | zero => cases fu <;> cases fu' <;> rfl
    | succ k' =>
      obtain ⟨a, rfl⟩ : ∃ a, fu = a + 1 := ⟨fu - 1, by omega⟩
      obtain ⟨b, rfl⟩ : ∃ b, fu' = b + 1 := ⟨fu' - 1, by omega⟩
      simp only [composeFrameGo]
      by_cases hp : (lig.frameAt (k' + 1)).parent < k' + 1
      · simp only [if_pos hp]
        rw [ih (lig.frameAt (k' + 1)).parent hp a b (by omega) (by omega)]
      · simp only [if_neg hp]

/-- On a well-formed ligand the per-frame origins of `evaluate` and
`compose_result` agree, and so do the orientations of the root and of every
active frame. -/
theorem frame_agree (lig : Lig) (tr : Trig) (conf : Conformation)
    (h : lig.wf = true) :
    ∀ k, k < lig.numFrames →
      (evalFrame lig tr conf k).origin = (composeFrame lig tr conf k).origin ∧
      ((k = 0 ∨ (lig.frameAt k).active = true) →
        (evalFrame lig tr conf k).q = (composeFrame lig tr conf k).q ∧
        (evalFrame lig tr conf k).m = (composeFrame lig tr conf k).m) := by
  intro k
  induction k using Nat.strong_induction_on with
  | _ k ih =>
    intro hk
    cases k with
    | zero => exact ⟨rfl, fun _ => ⟨rfl, rfl⟩⟩
    | succ k' =>
      obtain ⟨hp, hpa⟩ := wf_branch lig h (k := k' + 1) (by omega) hk
      have hpnf : (lig.frameAt (k' + 1)).parent < lig.numFrames := by omega
      have ihp := ih (lig.frameAt (k' + 1)).parent hp hpnf
      have ihq := ihp.2 (Or.inr hpa)
      have hev : evalFrameGo lig tr conf k' (lig.frameAt (k' + 1)).parent =
          evalFrame lig tr conf (lig.frameAt (k' + 1)).parent :=
        evalFrameGo_congr lig tr conf (lig.frameAt (k' + 1)).parent k'
          (lig.frameAt (k' + 1)).parent (by omega) (le_refl _)
      have hcv : composeFrameGo lig tr conf k' (lig.frameAt (k' + 1)).parent =
          composeFrame lig tr conf (lig.frameAt (k' + 1)).parent :=
        composeFrameGo_congr lig tr conf (lig.frameAt (k' + 1)).parent k'
          (lig.frameAt (k' + 1)).parent (by omega) (le_refl _)
      have ihpo : (evalFrameGo lig tr conf (lig.frameAt (k' + 1)).parent
            (lig.frameAt (k' + 1)).parent).origin =
          (composeFrameGo lig tr conf (lig.frameAt (k' + 1)).parent
            (lig.frameAt (k' + 1)).parent).origin := ihp.1
      have ihqq : (evalFrameGo lig tr conf (lig.frameAt (k' + 1)).parent
            (lig.frameAt (k' + 1)).parent).q =
          (composeFrameGo lig tr conf (lig.frameAt (k' + 1)).parent
            (lig.frameAt (k' + 1)).parent).q := ihq.1
      have ihqm : (evalFrameGo lig tr conf (lig.frameAt (k' + 1)).parent
            (lig.frameAt (k' + 1)).parent).m =
          (composeFrameGo lig tr conf (lig.frameAt (k' + 1)).parent
            (lig.frameAt (k' + 1)).parent).m := ihq.2
      simp only [evalFrame, composeFrame, evalFrameGo, composeFrameGo,
        if_pos hp, hev, hcv]
      by_cases hA : (lig.frameAt (k' + 1)).active = true
      · simp only [hA, if_true]
        refine ⟨?_, fun _ => ⟨?_, ?_⟩⟩
        · rw [ihpo, ihqm]
        · rw [ihqq, ihqm]
        · rw [ihqq, ihqm]
      · have hA' : (lig.frameAt (k' + 1)).active = false := by
          revert hA
          cases (lig.frameAt (k' + 1)).active <;> simp
        simp only [hA', Bool.false_eq_true, if_false]
        constructor
        · rw [ihpo, ihqm]
        · intro hor
          rcases hor with h0 | h1
          · omega
          · exact absurd h1 (by simp)

/-- C9: for every conformation of a well-formed ligand, the heavy-atom
world coordinates computed by `ligand::compose_result` equal, atom for atom,
those computed by the forward-kinematics pass inside `ligand::evaluate`; in
particular, for an inactive frame `evaluate` places the rotor Y atom at the
frame origin while `compose_result` applies a torsion angle of zero, and
the two agree because the inactive frame's single heavy atom has zero local
coordinate. -/
theorem claim_C9_compose_matches_evaluate (lig : Lig) (tr : Trig)
    (conf : Conformation) (h : lig.wf = true) :
    ∀ k, k < lig.numFrames → ∀ i ∈ lig.haIndices k,
      evalCoord lig tr conf i = composeCoord lig tr conf i := by
  intro k hk i hi
  have hle := wf_le lig h hk
  have hmem := List.mem_range'_1.mp hi
  have hbeg : (lig.frameAt k).habegin ≤ i := hmem.1
  have hend : i < (lig.frameAt k).haend := by omega
  have hfo : lig.frameOf i = k := frameOf_eq lig h hk hbeg hend
  have hfa := frame_agree lig tr conf h k hk
  simp only [evalCoord, composeCoord, hfo]
  by_cases hact : k = 0 ∨ (lig.frameAt k).active = true
  · have hqm := hfa.2 hact
    simp only [if_pos hact]
    rw [hfa.1, hqm.2]
  · push_neg at hact
    have hk1 : 1 ≤ k := by
      rcases Nat.eq_zero_or_pos k with h0 | h1
      · exact absurd h0 hact.1
      · exact h1
    have hA' : (lig.frameAt k).active = false := by
      revert hact
      cases (lig.frameAt k).active <;> simp
    obtain ⟨hhe, hry, hco⟩ := wf_inactive lig h hk1 hk hA'
    have hiry : i = (lig.frameAt k).rotorY := by omega
    have hcond : ¬(k = 0 ∨ (lig.frameAt k).active = true) := by
      intro hc
      rcases hc with h0 | h1
      · exact hact.1 h0
      · exact hact.2 h1
    simp only [if_neg hcond, if_pos hiry]
    rw [hiry, hco, mvmul_zero3, vadd_zero3]
    exact hfa.1

/-- C9 witness: the two-frame demo ligand with an inactive branch is
well-formed, and the coordinate of its branch atom agrees between the two
kinematics passes. -/
theorem claim_C9_witness :
    demoLig2.wf = true ∧
    evalCoord demoLig2 demoTrig demoConf 1 = composeCoord demoLig2 demoTrig demoConf 1 :=
  ⟨by decide,
   claim_C9_compose_matches_evaluate demoLig2 demoTrig demoConf (by decide) 1
     (by decide) 1 (by decide)⟩

/-- On a well-formed ligand, the coordinate `evaluate` computes for the
single atom of an inactive frame is the frame origin. -/
theorem inactiveCoord (lig : Lig) (tr : Trig) (conf : Conformation)
    (h : lig.wf = true) {k i : ℕ} (hk1 : 1 ≤ k) (hk2 : k < lig.numFrames)
    (hA : (lig.frameAt k).active = false) (hi : i ∈ lig.haIndices k) :
    evalCoord lig tr conf i = (evalFrame lig tr conf k).origin := by
  have hle := wf_le lig h hk2
  have hmem := List.mem_range'_1.mp hi
  have hbeg : (lig.frameAt k).habegin ≤ i := hmem.1
  have hend : i < (lig.frameAt k).haend := by omega
  have hfo : lig.frameOf i = k := frameOf_eq lig h hk2 hbeg hend
  obtain ⟨hhe, hry, _⟩ := wf_inactive lig h hk1 hk2 hA
  have hiry : i = (lig.frameAt k).rotorY := by omega
  have hcond : ¬(k = 0 ∨ (lig.frameAt k).active = true) := by
    intro hc
    rcases hc with h0 | h1
    · omega
    · rw [hA] at h1
      exact absurd h1 (by simp)
  simp only [evalCoord, hfo, if_neg hcond, if_pos hiry]

/-- On a well-formed ligand the box checks of `evaluate`'s kinematics pass
are equivalent to: every root atom inside, every non-root origin inside,
every non-root heavy atom inside. -/
theorem coordsWithin_iff (lig : Lig) (tr : Trig) (conf : Conformation)
    (b : Box) (h : lig.wf = true) :
    coordsWithin lig tr conf b = true ↔
      ((∀ i ∈ lig.haIndices 0, b.within (evalCoord lig tr conf i) = true) ∧
       (∀ k, 1 ≤ k → k < lig.numFrames →
         b.within (evalFrame lig tr conf k).origin = true) ∧
       (∀ k, 1 ≤ k → k < lig.numFrames →
         ∀ i ∈ lig.haIndices k, b.within (evalCoord lig tr conf i) = true)) := by
  have hnf := wf_nf_pos lig h
  constructor
  · intro hcw
    simp only [coordsWithin, Bool.and_eq_true, List.all_eq_true] at hcw
    obtain ⟨h0, hrest⟩ := hcw
    refine ⟨h0, ?_, ?_⟩
    · intro k h1 h2
      have hm : k ∈ List.range' 1 (lig.numFrames - 1) :=
        List.mem_range'_1.mpr ⟨h1, by omega⟩
      have hk := hrest k hm
      simp only [Bool.and_eq_true] at hk
      exact hk.1
    · intro k h1 h2 i hi
      have hm : k ∈ List.range' 1 (lig.numFrames - 1) :=
        List.mem_range'_1.mpr ⟨h1, by omega⟩
      have hk := hrest k hm
      simp only [Bool.and_eq_true] at hk
      by_cases hA : (lig.frameAt k).active = true
      · have hatoms := hk.2
        simp only [hA, if_true, List.all_eq_true] at hatoms
        exact hatoms i hi
      · have hA' : (lig.frameAt k).active = false := by
          revert hA
          cases (lig.frameAt k).active <;> simp
        rw [inactiveCoord lig tr conf h h1 h2 hA' hi]
        exact hk.1
  · intro hall
    obtain ⟨h0, horig, hatoms⟩ := hall
    simp only [coordsWithin, Bool.and_eq_true, List.all_eq_true]
    refine ⟨h0, ?_⟩
    intro k hm
    have hk1 := (List.mem_range'_1.mp hm).1
    have hk2 : k < lig.numFrames := by
      have := (List.mem_range'_1.mp hm).2
      omega
    refine ⟨horig k hk1 hk2, ?_⟩
    by_cases hA : (lig.frameAt k).active = true
    · simp only [hA, if_true, List.all_eq_true]
      exact fun i hi => hatoms k hk1 hk2 i hi
    · have hA' : (lig.frameAt k).active = false := by
        revert hA
        cases (lig.frameAt k).active <;> simp
      rw [hA']
      simp

/-- C4: on a well-formed ligand, `ligand::evaluate` rejects a conformation
exactly when the position is outside the half-open box, or some root heavy
atom is outside, or some non-root frame origin is outside, or some
branch-frame heavy atom is outside, or the total energy reaches
`e_upper_bound`; otherwise it returns the total energy, the inter-molecular
energy, and the gradient. -/
theorem claim_C4_evaluate_reject_iff (lig : Lig) (tr : Trig)
    (conf : Conformation) (sf : SF) (b : Box) (maps : GridMaps)
    (ub e0 f0 : ℚ) (g0 : Change) (h : lig.wf = true) :
    ((lig.evaluate tr conf sf b maps ub e0 f0 g0).1 = false ↔
      (¬ b.within conf.position = true ∨
       (∃ i ∈ lig.haIndices 0, ¬ b.within (evalCoord lig tr conf i) = true) ∨
       (∃ k, 1 ≤ k ∧ k < lig.numFrames ∧
         ¬ b.within (evalFrame lig tr conf k).origin = true) ∨
       (∃ k, 1 ≤ k ∧ k < lig.numFrames ∧
         ∃ i ∈ lig.haIndices k, ¬ b.within (evalCoord lig tr conf i) = true) ∨
       eInter lig tr conf b maps + eIntra lig tr conf sf ≥ ub)) ∧
    ((lig.evaluate tr conf sf b maps ub e0 f0 g0).1 = true →
      lig.evaluate tr conf sf b maps ub e0 f0 g0 =
        (true, eInter lig tr conf b maps + eIntra lig tr conf sf,
         eInter lig tr conf b maps, evalGradient lig tr conf b maps sf)) := by
  by_cases hpos : b.within conf.position = true
  · by_cases hcw : coordsWithin lig tr conf b = true
    · have hcw' := (coordsWithin_iff lig tr conf b h).mp hcw
      by_cases het : eInter lig tr conf b maps + eIntra lig tr conf sf ≥ ub
      · constructor
        · constructor
          · intro _
            exact Or.inr (Or.inr (Or.inr (Or.inr het)))
          · intro _
            simp [Lig.evaluate, hpos, hcw, if_pos het]
        · intro htrue
          exfalso
          simp [Lig.evaluate, hpos, hcw, if_pos het] at htrue
      · constructor
        · constructor
          · intro hfalse
            exfalso
            simp [Lig.evaluate, hpos, hcw, if_neg het] at hfalse
          · intro hd
            exfalso
            rcases hd with h1 | h2 | h3 | h4 | h5
            · exact h1 hpos
            · obtain ⟨i, hi, hni⟩ := h2
              exact hni (hcw'.1 i hi)
            · obtain ⟨k, hk1, hk2, hnk⟩ := h3
              exact hnk (hcw'.2.1 k hk1 hk2)
            · obtain ⟨k, hk1, hk2, i, hi, hni⟩ := h4
              exact hni (hcw'.2.2 k hk1 hk2 i hi)
            · exact het h5
        · intro _
          simp [Lig.evaluate, hpos, hcw, if_neg het]
    · have hd : (∃ i ∈ lig.haIndices 0, ¬ b.within (evalCoord lig tr conf i) = true) ∨
          (∃ k, 1 ≤ k ∧ k < lig.numFrames ∧
            ¬ b.within (evalFrame lig tr conf k).origin = true) ∨
          (∃ k, 1 ≤ k ∧ k < lig.numFrames ∧
            ∃ i ∈ lig.haIndices k, ¬ b.within (evalCoord lig tr conf i) = true) := by
        by_contra hc
        push_neg at hc
        exact hcw ((coordsWithin_iff lig tr conf b h).mpr hc)
      constructor
      · constructor
        · intro _
          rcases hd with h2 | h3 | h4
          · exact Or.inr (Or.inl h2)
          · exact Or.inr (Or.inr (Or.inl h3))
          · exact Or.inr (Or.inr (Or.inr (Or.inl h4)))
        · intro _
          simp [Lig.evaluate, hpos, hcw]
      · intro htrue
        exfalso
        simp [Lig.evaluate, hpos, hcw] at htrue
  · constructor
    · constructor
      · intro _
        exact Or.inl hpos
      · intro _
        simp [Lig.evaluate, hpos]
    · intro htrue
      exfalso
      simp [Lig.evaluate, hpos] at htrue

/-- C4 witness: the rejection characterization instantiated on the demo
ligand, box, grid maps and a pose inside the box. -/
theorem claim_C4_witness :
    demoLig1.wf = true ∧
    (((demoLig1.evaluate demoTrig demoConf demoSF demoBox demoMaps 1 0 0
        scratchChange).1 = false ↔
      (¬ demoBox.within demoConf.position = true ∨
       (∃ i ∈ demoLig1.haIndices 0,
         ¬ demoBox.within (evalCoord demoLig1 demoTrig demoConf i) = true) ∨
       (∃ k, 1 ≤ k ∧ k < demoLig1.numFrames ∧
         ¬ demoBox.within (evalFrame demoLig1 demoTrig demoConf k).origin = true) ∨
       (∃ k, 1 ≤ k ∧ k < demoLig1.numFrames ∧
         ∃ i ∈ demoLig1.haIndices k,
           ¬ demoBox.within (evalCoord demoLig1 demoTrig demoConf i) = true) ∨
       eInter demoLig1 demoTrig demoConf demoBox demoMaps +
         eIntra demoLig1 demoTrig demoConf demoSF ≥ 1)) ∧
     ((demoLig1.evaluate demoTrig demoConf demoSF demoBox demoMaps 1 0 0
        scratchChange).1 = true →
      demoLig1.evaluate demoTrig demoConf demoSF demoBox demoMaps 1 0 0
        scratchChange =
        (true, eInter demoLig1 demoTrig demoConf demoBox demoMaps +
          eIntra demoLig1 demoTrig demoConf demoSF,
         eInter demoLig1 demoTrig demoConf demoBox demoMaps,
         evalGradient demoLig1 demoTrig demoConf demoBox demoMaps demoSF))) :=
  ⟨by decide,
   claim_C4_evaluate_reject_iff demoLig1 demoTrig demoConf demoSF demoBox
     demoMaps 1 0 0 scratchChange (by decide)⟩

/-- C10: whenever `ligand::evaluate` rejects a conformation, the gradient
output argument is returned exactly as it was passed in — every write to
`g` happens only after the final energy-bound check has passed — while on
the energy-bound rejection path the scalar outputs `e` and `f` have already
been overwritten with the computed energies. -/
theorem claim_C10_gradient_untouched_on_reject (lig : Lig) (tr : Trig)
    (conf : Conformation) (sf : SF) (b : Box) (maps : GridMaps)
    (ub e0 f0 : ℚ) (g0 : Change)
    (hrej : (lig.evaluate tr conf sf b maps ub e0 f0 g0).1 = false) :
    (lig.evaluate tr conf sf b maps ub e0 f0 g0).2.2.2 = g0 ∧
    ((b.within conf.position = true ∧ coordsWithin lig tr conf b = true) →
      (lig.evaluate tr conf sf b maps ub e0 f0 g0).2.1 =
        eInter lig tr conf b maps + eIntra lig tr conf sf ∧
      (lig.evaluate tr conf sf b maps ub e0 f0 g0).2.2.1 =
        eInter lig tr conf b maps) := by
  by_cases hpos : b.within conf.position = true
  · by_cases hcw : coordsWithin lig tr conf b = true
    · by_cases het : eInter lig tr conf b maps + eIntra lig tr conf sf ≥ ub
      · constructor
        · simp [Lig.evaluate, hpos, hcw, if_pos het]
        · intro _
          constructor <;> simp [Lig.evaluate, hpos, hcw, if_pos het]
      · exfalso
        simp [Lig.evaluate, hpos, hcw, if_neg het] at hrej
    · constructor
      · simp [Lig.evaluate, hpos, hcw]
      · intro hc
        exact absurd hc.2 hcw
  · constructor
    · simp [Lig.evaluate, hpos]
    · intro hc
      exact absurd hc.1 hpos

/-- C10 witness: a pose outside the demo box is rejected and the gradient
argument comes back untouched. -/
theorem claim_C10_witness :
    (demoLig1.evaluate demoTrig demoConfOut demoSF demoBox demoMaps 1 7 8
      ⟨⟨1, 2, 3⟩, ⟨4, 5, 6⟩, []⟩).1 = false ∧
    (demoLig1.evaluate demoTrig demoConfOut demoSF demoBox demoMaps 1 7 8
      ⟨⟨1, 2, 3⟩, ⟨4, 5, 6⟩, []⟩).2.2.2 = ⟨⟨1, 2, 3⟩, ⟨4, 5, 6⟩, []⟩ :=
  ⟨by decide,
   (claim_C10_gradient_untouched_on_reject demoLig1 demoTrig demoConfOut
     demoSF demoBox demoMaps 1 7 8 ⟨⟨1, 2, 3⟩, ⟨4, 5, 6⟩, []⟩ (by decide)).1⟩

/-- C2 counterexample: the orientation mutation performs no explicit
re-normalization — applied to a quaternion of norm 2 with the identity
rotation quaternion, it returns the input unchanged, with squared norm 4,
neither exactly unit (as re-normalization would force) nor within the
1e-2 `normalized` tolerance. -/
theorem claim_C2_counterexample :
    ¬ (normSqr4 ((mutateConf demoV3Q demoDraws 0
        ⟨⟨1, 1, 1⟩, ⟨2, 0, 0, 0⟩, []⟩ 1 0).1.orientation) = 1 ∧
       normalized4 ((mutateConf demoV3Q demoDraws 0
        ⟨⟨1, 1, 1⟩, ⟨2, 0, 0, 0⟩, []⟩ 1 0).1.orientation) = true) := by
  intro hc
  have h1 := hc.1
  norm_num [mutateConf, demoV3Q, qmul, normSqr4, smul, demoDraws] at h1

/-- C2 amended: neither the orientation mutation nor the BFGS line-search
step re-normalizes the quaternion; each forms a plain left quaternion
product, which keeps the orientation exactly unit (and hence within the
asserted 1e-2 `normalized` tolerance) whenever the incoming orientation and
the axis-angle factor are unit quaternions. -/
theorem claim_C2_amended (v3q : V3 → V4) (draws : ℕ → ℚ) (nT : ℕ)
    (c0 : Conformation) (entity n : ℕ) (c1 : Conformation) (alpha : ℚ)
    (p : Change) :
    (¬ entity < nT → ¬ entity = nT →
      normSqr4 (v3q (smul (1 / 100) ⟨draws n, draws (n + 1), draws (n + 2)⟩)) = 1 →
      normSqr4 c0.orientation = 1 →
      normSqr4 (mutateConf v3q draws nT c0 entity n).1.orientation = 1 ∧
      normalized4 (mutateConf v3q draws nT c0 entity n).1.orientation = true) ∧
    (normSqr4 (v3q (smul alpha ⟨p.get 3, p.get 4, p.get 5⟩)) = 1 →
      normSqr4 c1.orientation = 1 →
      normSqr4 (lsStepConf v3q c1 alpha p nT).orientation = 1 ∧
      normalized4 (lsStepConf v3q c1 alpha p nT).orientation = true) := by
  constructor
  · intro h1 h2 hv hq
    have horient : (mutateConf v3q draws nT c0 entity n).1.orientation =
        qmul (v3q (smul (1 / 100) ⟨draws n, draws (n + 1), draws (n + 2)⟩))
          c0.orientation := by
      simp [mutateConf, if_neg h1, if_neg h2]
    have hns : normSqr4 (mutateConf v3q draws nT c0 entity n).1.orientation = 1 := by
      rw [horient, normSqr4_qmul, hv, hq, one_mul]
    refine ⟨hns, ?_⟩
    simp [normalized4, hns]
  · intro hv hq
    have horient : (lsStepConf v3q c1 alpha p nT).orientation =
        qmul (v3q (smul alpha ⟨p.get 3, p.get 4, p.get 5⟩)) c1.orientation := rfl
    have hns : normSqr4 (lsStepConf v3q c1 alpha p nT).orientation = 1 := by
      rw [horient, normSqr4_qmul, hv, hq, one_mul]
    refine ⟨hns, ?_⟩
    simp [normalized4, hns]

/-- C2 amended witness: both parts instantiated with unit inputs. -/
theorem claim_C2_amended_witness :
    (normSqr4 (mutateConf demoV3Q demoDraws 0 demoConf 1 0).1.orientation = 1 ∧
     normalized4 (mutateConf demoV3Q demoDraws 0 demoConf 1 0).1.orientation = true) ∧
    (normSqr4 (lsStepConf demoV3Q demoConf 1 scratchChange 0).orientation = 1 ∧
     normalized4 (lsStepConf demoV3Q demoConf 1 scratchChange 0).orientation = true) :=
  ⟨(claim_C2_amended demoV3Q demoDraws 0 demoConf 1 0 demoConf 1
      scratchChange).1 (by decide) (by decide)
      (by norm_num [demoV3Q, normSqr4])
      (by norm_num [demoConf, normSqr4]),
   (claim_C2_amended demoV3Q demoDraws 0 demoConf 1 0 demoConf 1
      scratchChange).2 (by norm_num [demoV3Q, normSqr4])
      (by norm_num [demoConf, normSqr4])⟩

/-- The line-search loop computes the first accepted trial: starting from
trial `t` with `alpha = 0.1^t` and `rem` remaining trials, it returns the
data of the first trial in `[t, t + rem)` that is accepted, and `none` when
none is. -/
theorem lineSearchGo_spec (lig : Lig) (tr : Trig) (sf : SF) (b : Box)
    (maps : GridMaps) (v3q : V3 → V4) (c1 : Conformation) (e1 pg1 : ℚ)
    (p : Change) (nT nv : ℕ) :
    ∀ (rem t : ℕ),
      lineSearchGo lig tr sf b maps v3q c1 e1 pg1 p nT nv ((1 / 10 : ℚ) ^ t) t rem =
      ((List.range' t rem).find?
        (lsAcceptB lig tr sf b maps v3q c1 e1 pg1 p nT nv)).map
        (lsTrial lig tr sf b maps v3q c1 e1 pg1 p nT) := by
  intro rem
  induction rem with
  | zero =>
    intro t
    simp [lineSearchGo]
  | succ rem ih =>
    intro t
    rw [List.range'_succ]
    simp only [lineSearchGo]
    have hpow : (1 / 10 : ℚ) ^ t * (1 / 10) = (1 / 10 : ℚ) ^ (t + 1) :=
      (pow_succ (1 / 10 : ℚ) t).symm
    rw [hpow]
    by_cases h1 : (lig.evaluate tr (lsStepConf v3q c1 ((1 / 10 : ℚ) ^ (t + 1)) p nT)
        sf b maps (e1 + 1 / 10000 * (1 / 10 : ℚ) ^ (t + 1) * pg1) 0 0 scratchChange).1 = true
    · by_cases h2 : dotChange p
          ((lig.evaluate tr (lsStepConf v3q c1 ((1 / 10 : ℚ) ^ (t + 1)) p nT)
            sf b maps (e1 + 1 / 10000 * (1 / 10 : ℚ) ^ (t + 1) * pg1) 0 0
            scratchChange).2.2.2) nv ≥ (9 / 10) * pg1
      · have hacc : lsAcceptB lig tr sf b maps v3q c1 e1 pg1 p nT nv t = true := by
          simp only [lsAcceptB]
          rw [h1]
          simp only [Bool.true_and, decide_eq_true_eq]
          exact h2
        rw [if_pos h1, if_pos h2, List.find?_cons_of_pos _ hacc]
        simp only [Option.map_some', lsTrial]
      · have hacc : lsAcceptB lig tr sf b maps v3q c1 e1 pg1 p nT nv t = false := by
          simp only [lsAcceptB]
          rw [h1]
          simp only [Bool.true_and, decide_eq_false_iff_not]
          exact h2
        rw [if_pos h1, if_neg h2, List.find?_cons_of_neg _ (by simp [hacc])]
        exact ih (t + 1)
    · have hf : (lig.evaluate tr (lsStepConf v3q c1 ((1 / 10 : ℚ) ^ (t + 1)) p nT)
          sf b maps (e1 + 1 / 10000 * (1 / 10 : ℚ) ^ (t + 1) * pg1) 0 0
          scratchChange).1 = false := by
        revert h1
        cases (lig.evaluate tr (lsStepConf v3q c1 ((1 / 10 : ℚ) ^ (t + 1)) p nT)
          sf b maps (e1 + 1 / 10000 * (1 / 10 : ℚ) ^ (t + 1) * pg1) 0 0
          scratchChange).1 <;> simp
      have hacc : lsAcceptB lig tr sf b maps v3q c1 e1 pg1 p nT nv t = false := by
        simp only [lsAcceptB]
        rw [hf]
        simp
      rw [if_neg h1, List.find?_cons_of_neg _ (by simp [hacc])]
      exact ih (t + 1)

/-- C5: the BFGS line search tries at most `num_alphas = 5` step lengths,
`alpha` starting at 1 and shrinking by the factor 0.1 at the head of each
trial (so trial `k` uses `0.1^(k+1)`); a trial is accepted exactly when the
evaluator accepts the stepped conformation under the Armijo bound
`e1 + 1e-4 * alpha * pg1` and the curvature condition
`p . g2 >= 0.9 * pg1` holds; the search returns the first accepted trial
and, when no trial is accepted, reports failure, upon which the BFGS inner
loop terminates with its current state. -/
theorem claim_C5_line_search (lig : Lig) (tr : Trig) (sf : SF) (b : Box)
    (maps : GridMaps) (v3q : V3 → V4) (c1 : Conformation) (e1 pg1 : ℚ)
    (p : Change) (nT nv : ℕ) :
    (lineSearch lig tr sf b maps v3q c1 e1 pg1 p nT nv =
      specLineSearch lig tr sf b maps v3q c1 e1 pg1 p nT nv) ∧
    (∀ (fu : ℕ) (c1' : Conformation) (e1' f1' : ℚ) (g1' : Change)
      (h : ℕ → ℕ → ℚ),
      lineSearch lig tr sf b maps v3q c1' e1'
        (dotChange (Change.ofFlat nT
          (fun i => -(((List.range nv).map (fun j => h i j * g1'.get j)).sum)))
          g1' nv)
        (Change.ofFlat nT
          (fun i => -(((List.range nv).map (fun j => h i j * g1'.get j)).sum)))
        nT nv = none →
      bfgsLoop lig tr sf b maps v3q nT nv (fu + 1) (c1', e1', f1', g1') h =
        (c1', e1', f1', g1')) := by
  constructor
  · have h0 := lineSearchGo_spec lig tr sf b maps v3q c1 e1 pg1 p nT nv numAlphas 0
    simp only [pow_zero] at h0
    rw [lineSearch, h0, specLineSearch, List.range_eq_range']
  · intro fu c1' e1' f1' g1' h hnone
    simp only [bfgsLoop]
    rw [hnone]

/-- C5 witness: with a start outside the box every trial is rejected, the
search agrees with its reference form (both fail), and the BFGS loop
terminates immediately. -/
theorem claim_C5_witness :
    (lineSearch demoLig1 demoTrig demoSF demoBox demoMaps demoV3Q demoConfOut
      0 0 scratchChange 0 0 =
      specLineSearch demoLig1 demoTrig demoSF demoBox demoMaps demoV3Q
        demoConfOut 0 0 scratchChange 0 0) ∧
    bfgsLoop demoLig1 demoTrig demoSF demoBox demoMaps demoV3Q 0 0 1
      (demoConfOut, 0, 0, scratchChange) identityHessian =
      (demoConfOut, 0, 0, scratchChange) :=
  ⟨(claim_C5_line_search demoLig1 demoTrig demoSF demoBox demoMaps demoV3Q
      demoConfOut 0 0 scratchChange 0 0).1,
   (claim_C5_line_search demoLig1 demoTrig demoSF demoBox demoMaps demoV3Q
      demoConfOut 0 0 scratchChange 0 0).2 0 demoConfOut 0 0 scratchChange
      identityHessian (by
        norm_num [lineSearch, lineSearchGo, lsStepConf, Change.ofFlat,
          Change.get, scratchChange, dotChange, vadd, smul, Lig.evaluate,
          Box.within, demoConfOut, demoBox, demoV3Q, numAlphas, zero3])⟩

/-- The initialization loop computes the first accepted random trial:
starting from trial `i` at stream position `i * (7 + nT)` with `rem`
remaining trials, it returns the data of the first accepted trial in
`[i, i + rem)`, and `none` when every one is rejected. -/
theorem initLoopGo_spec (lig : Lig) (tr : Trig) (sf : SF) (b : Box)
    (maps : GridMaps) (nrm4 : V4 → V4) (draws : ℕ → ℚ) (eUB : ℚ) (nT : ℕ) :
    ∀ (rem i : ℕ),
      initLoopGo lig tr sf b maps nrm4 draws eUB nT i (i * (7 + nT)) rem =
      ((List.range' i rem).find?
        (initAcceptB lig tr sf b maps nrm4 draws eUB nT)).map
        (initTrialData lig tr sf b maps nrm4 draws eUB nT) := by
  intro rem
  induction rem with
  | zero =>
    intro i
    simp [initLoopGo]
  | succ rem ih =>
    intro i
    rw [List.range'_succ]
    simp only [initLoopGo]
    by_cases h1 : (lig.evaluate tr (sampleConf nrm4 draws (i * (7 + nT)) nT)
        sf b maps eUB 0 0 scratchChange).1 = true
    · have hacc : initAcceptB lig tr sf b maps nrm4 draws eUB nT i = true := h1
      rw [if_pos h1, List.find?_cons_of_pos _ hacc]
      simp only [Option.map_some', initTrialData]
    · have hacc : initAcceptB lig tr sf b maps nrm4 draws eUB nT i = false := by
        revert h1
        simp only [initAcceptB]
        cases (lig.evaluate tr (sampleConf nrm4 draws (i * (7 + nT)) nT)
          sf b maps eUB 0 0 scratchChange).1 <;> simp
      rw [if_neg h1, List.find?_cons_of_neg _ (by simp [hacc])]
      have harith : i * (7 + nT) + 7 + nT = (i + 1) * (7 + nT) := by ring
      rw [harith]
      exact ih (i + 1)

/-- C7: the initialization phase of `monte_carlo_task` generates at most
1000 random conformations, each sampled from the draw stream (three
position draws, four draws normalized into the orientation, one draw per
active torsion), stopping at the first one the evaluator accepts; and when
all 1000 are rejected the task returns its results container untouched —
the embedded task is a total function, so no error is raised. -/
theorem claim_C7_init_loop (lig : Lig) (tr : Trig) (sf : SF) (b : Box)
    (maps : GridMaps) (v3q : V3 → V4) (nrm4 : V4 → V4) (ex : ℚ → ℚ)
    (draws : ℕ → ℚ) (idraws : ℕ → ℕ) (cap mutFuel bfgsFuel : ℕ)
    (results0 : List Res) (eUB : ℚ) (nT : ℕ) :
    (initLoop lig tr sf b maps nrm4 draws eUB nT =
      ((List.range 1000).find?
        (initAcceptB lig tr sf b maps nrm4 draws eUB nT)).map
        (initTrialData lig tr sf b maps nrm4 draws eUB nT)) ∧
    (initLoop lig tr sf b maps nrm4 draws
        ((4 * lig.numHeavyAtoms : ℕ) : ℚ) lig.numActiveTorsions = none →
      monte_carlo_task lig tr sf b maps v3q nrm4 ex draws idraws cap mutFuel
        bfgsFuel results0 = results0) := by
  constructor
  · have h0 := initLoopGo_spec lig tr sf b maps nrm4 draws eUB nT 1000 0
    simp only [Nat.zero_mul] at h0
    rw [initLoop, h0, List.range_eq_range']
  · intro hnone
    simp only [monte_carlo_task]
    rw [hnone]

/-- C7 witness: with every position draw outside the box all 1000 trials
are rejected and the task hands back its input container. -/
theorem claim_C7_witness :
    initLoop demoLig1 demoTrig demoSF demoBox demoMaps demoNrm4 demoDraws5
      ((4 * demoLig1.numHeavyAtoms : ℕ) : ℚ) demoLig1.numActiveTorsions = none ∧
    monte_carlo_task demoLig1 demoTrig demoSF demoBox demoMaps demoV3Q
      demoNrm4 demoEx demoDraws5 demoIdraws 10 1 1 [] = [] := by
  have hall : ∀ i, initAcceptB demoLig1 demoTrig demoSF demoBox demoMaps
      demoNrm4 demoDraws5 ((4 * demoLig1.numHeavyAtoms : ℕ) : ℚ)
      demoLig1.numActiveTorsions i = false := by
    intro i
    norm_num [initAcceptB, Lig.evaluate, sampleConf, Box.within, demoDraws5,
      demoBox, demoLig1]
  have hnone : initLoop demoLig1 demoTrig demoSF demoBox demoMaps demoNrm4
      demoDraws5 ((4 * demoLig1.numHeavyAtoms : ℕ) : ℚ)
      demoLig1.numActiveTorsions = none := by
    rw [(claim_C7_init_loop demoLig1 demoTrig demoSF demoBox demoMaps demoV3Q
      demoNrm4 demoEx demoDraws5 demoIdraws 10 1 1 []
      ((4 * demoLig1.numHeavyAtoms : ℕ) : ℚ) demoLig1.numActiveTorsions).1]
    rw [List.find?_eq_none.mpr (fun x _ => by simpa using hall x)]
    rfl
  exact ⟨hnone,
    (claim_C7_init_loop demoLig1 demoTrig demoSF demoBox demoMaps demoV3Q
      demoNrm4 demoEx demoDraws5 demoIdraws 10 1 1 []
      ((4 * demoLig1.numHeavyAtoms : ℕ) : ℚ) demoLig1.numActiveTorsions).2 hnone⟩

/-- C8: the embedded `monte_carlo_task` is a pure function of the ligand,
scoring function, box, grid maps and the draw streams derived from the
seed — the source draws all randomness from a single `mt19937_64` engine
constructed from the `seed` argument alone and reads no other mutable
state — so two runs with equal streams produce identical result lists. -/
theorem claim_C8_determinism (lig : Lig) (tr : Trig) (sf : SF) (b : Box)
    (maps : GridMaps) (v3q : V3 → V4) (nrm4 : V4 → V4) (ex : ℚ → ℚ)
    (draws draws' : ℕ → ℚ) (idraws idraws' : ℕ → ℕ)
    (cap mutFuel bfgsFuel : ℕ) (results0 : List Res)
    (hd : draws = draws') (hi : idraws = idraws') :
    monte_carlo_task lig tr sf b maps v3q nrm4 ex draws idraws cap mutFuel
      bfgsFuel results0 =
    monte_carlo_task lig tr sf b maps v3q nrm4 ex draws' idraws' cap mutFuel
      bfgsFuel results0 := by
  rw [hd, hi]

/-- C8 witness: two runs over the same concrete streams coincide. -/
theorem claim_C8_witness :
    monte_carlo_task demoLig1 demoTrig demoSF demoBox demoMaps demoV3Q
      demoNrm4 demoEx demoDraws5 demoIdraws 10 1 1 [] =
    monte_carlo_task demoLig1 demoTrig demoSF demoBox demoMaps demoV3Q
      demoNrm4 demoEx demoDraws5 demoIdraws 10 1 1 [] :=
  claim_C8_determinism demoLig1 demoTrig demoSF demoBox demoMaps demoV3Q
    demoNrm4 demoEx demoDraws5 demoDraws5 demoIdraws demoIdraws 10 1 1 []
    rfl rfl

/-- C1 (code-bug exhibit): in a reachable Metropolis state with
`best_e = 2`, `e0 = 5`, an accepted candidate `e1 = 1` (`delta = 4 > 0`)
and a pool with spare room, the source's update `if (e1 < best_e)
best_e = e0;` sets `best_e` to 5, while `min(best_e, e1) = 1`; the
accompanying state updates `e0 <- e1` and `c0 <- c1` do happen. -/
theorem claim_C1_best_e_bug :
    (metropolisAccept demoLig1 demoTrig 10 1 [] 2 5 demoConfOut demoConf 1 0
      (decide ((5 : ℚ) - 1 > 0))).2.1 = 5 ∧
    ¬ ((5 : ℚ) = min 2 1) ∧
    (metropolisAccept demoLig1 demoTrig 10 1 [] 2 5 demoConfOut demoConf 1 0
      (decide ((5 : ℚ) - 1 > 0))).2.2 = (1, demoConf) := by
  have hacc : (decide ((5 : ℚ) - 1 > 0)) = true := by norm_num
  refine ⟨?_, by norm_num, ?_⟩
  · rw [hacc]
    norm_num [metropolisAccept]
  · rw [hacc]
    norm_num [metropolisAccept]

/-- Membership in a deduplicating push. -/
theorem mem_pushNew (acc : List ℕ) (x y : ℕ) :
    y ∈ pushNew acc x ↔ y ∈ acc ∨ y = x := by
  by_cases h : x ∈ acc
  · simp only [pushNew, if_pos h]
    constructor
    · exact fun hy => Or.inl hy
    · intro hy
      rcases hy with hy | hy
      · exact hy
      · exact hy ▸ h
  · simp [pushNew, if_neg h]

/-- Membership after folding plain pushes. -/
theorem mem_foldl_pushNew (l : List ℕ) :
    ∀ (acc : List ℕ) (y : ℕ), y ∈ l.foldl pushNew acc ↔ y ∈ acc ∨ y ∈ l := by
  induction l with
  | nil => simp
  | cons b rest ih =>
    intro acc y
    simp only [List.foldl_cons]
    rw [ih, mem_pushNew]
    simp [or_assoc]

/-- Membership after the two inner collection levels. -/
theorem mem_foldl_level2 (bonds : ℕ → List ℕ) (l : List ℕ) :
    ∀ (acc : List ℕ) (y : ℕ),
      y ∈ l.foldl (fun acc2 b2 => (bonds b2).foldl pushNew (pushNew acc2 b2)) acc ↔
      y ∈ acc ∨ ∃ b2 ∈ l, y = b2 ∨ y ∈ bonds b2 := by
  induction l with
  | nil => simp
  | cons b rest ih =>
    intro acc y
    simp only [List.foldl_cons]
    rw [ih, mem_foldl_pushNew, mem_pushNew]
    constructor
    · intro hy
      rcases hy with ((hy | hy) | hy) | ⟨b2, hb2, hy⟩
      · exact Or.inl hy
      · exact Or.inr ⟨b, by simp, Or.inl hy⟩
      · exact Or.inr ⟨b, by simp, Or.inr hy⟩
      · exact Or.inr ⟨b2, by simp [hb2], hy⟩
    · intro hy
      rcases hy with hy | ⟨b2, hb2, hy⟩
      · exact Or.inl (Or.inl (Or.inl hy))
      · rcases List.mem_cons.mp hb2 with hb | hb
        · subst hb
          rcases hy with hy | hy
          · exact Or.inl (Or.inl (Or.inr hy))
          · exact Or.inl (Or.inr hy)
        · exact Or.inr ⟨b2, hb, hy⟩

/-- Membership in the collected neighbor set: exactly the endpoints of
one-, two- and three-step adjacency walks from `i`. -/
theorem mem_collectNeighbors (bonds : ℕ → List ℕ) (i y : ℕ) :
    y ∈ collectNeighbors bonds i ↔
      ∃ b1 ∈ bonds i, y = b1 ∨ ∃ b2 ∈ bonds b1, y = b2 ∨ y ∈ bonds b2 := by
  have main : ∀ (l : List ℕ) (acc : List ℕ),
      y ∈ l.foldl (fun acc b1 =>
        (bonds b1).foldl (fun acc2 b2 =>
          (bonds b2).foldl pushNew (pushNew acc2 b2)) (pushNew acc b1)) acc ↔
      y ∈ acc ∨ ∃ b1 ∈ l, y = b1 ∨ ∃ b2 ∈ bonds b1, y = b2 ∨ y ∈ bonds b2 := by
    intro l
    induction l with
    | nil => simp
    | cons b rest ih =>
      intro acc
      simp only [List.foldl_cons]
      rw [ih, mem_foldl_level2, mem_pushNew]
      constructor
      · intro hy
        rcases hy with ((hy | hy) | ⟨b2, hb2, hy⟩) | ⟨b1, hb1, hy⟩
        · exact Or.inl hy
        · exact Or.inr ⟨b, by simp, Or.inl hy⟩
        · exact Or.inr ⟨b, by simp, Or.inr ⟨b2, hb2, hy⟩⟩
        · exact Or.inr ⟨b1, by simp [hb1], hy⟩
      · intro hy
        rcases hy with hy | ⟨b1, hb1, hy⟩
        · exact Or.inl (Or.inl (Or.inl hy))
        · rcases List.mem_cons.mp hb1 with hb | hb
          · subst hb
            rcases hy with hy | ⟨b2, hb2, hy⟩
            · exact Or.inl (Or.inl (Or.inr hy))
            · exact Or.inl (Or.inr ⟨b2, hb2, hy⟩)
          · exact Or.inr ⟨b1, hb, hy⟩
  have := main (bonds i) []
  simpa [collectNeighbors] using this

/-- The collected neighbor set is exactly reachability in one to three
hops. -/
theorem mem_collect_iff_walk (bonds : ℕ → List ℕ) (i y : ℕ) :
    y ∈ collectNeighbors bonds i ↔
      (walkB bonds 1 i y = true ∨ walkB bonds 2 i y = true ∨
       walkB bonds 3 i y = true) := by
  rw [mem_collectNeighbors]
  simp only [walkB, List.any_eq_true, decide_eq_true_eq]
  constructor
  · intro hy
    obtain ⟨b1, hb1, hy⟩ := hy
    rcases hy with hy | ⟨b2, hb2, hy⟩
    · exact Or.inl ⟨b1, hb1, hy⟩
    · rcases hy with hy | hy
      · exact Or.inr (Or.inl ⟨b1, hb1, b2, hb2, hy⟩)
      · exact Or.inr (Or.inr ⟨b1, hb1, b2, hb2, y, hy, rfl⟩)
  · intro hy
    rcases hy with ⟨b1, hb1, hy⟩ | ⟨b1, hb1, b2, hb2, hy⟩ |
      ⟨b1, hb1, b2, hb2, b3, hb3, hy⟩
    · exact ⟨b1, hb1, Or.inl hy⟩
    · exact ⟨b1, hb1, Or.inr ⟨b2, hb2, Or.inl hy⟩⟩
    · exact ⟨b1, hb1, Or.inr ⟨b2, hb2, Or.inr (hy ▸ hb3)⟩⟩

/-- Reachability within three hops unfolded into walk lengths 0 to 3. -/
theorem reachWithin_three (bonds : ℕ → List ℕ) (i y : ℕ) :
    reachWithin bonds 3 i y = true ↔
      (y = i ∨ walkB bonds 1 i y = true ∨ walkB bonds 2 i y = true ∨
       walkB bonds 3 i y = true) := by
  have h4 : List.range 4 = [0, 1, 2, 3] := by decide
  simp only [reachWithin, h4, List.any_eq_true]
  constructor
  · intro hy
    obtain ⟨n, hn, hw⟩ := hy
    simp only [List.mem_cons, List.not_mem_nil, or_false] at hn
    rcases hn with rfl | rfl | rfl | rfl
    · left
      simpa [walkB] using hw
    · exact Or.inr (Or.inl hw)
    · exact Or.inr (Or.inr (Or.inl hw))
    · exact Or.inr (Or.inr (Or.inr hw))
  · intro hy
    rcases hy with hy | hy | hy | hy
    · exact ⟨0, by simp, by simpa [walkB] using hy⟩
    · exact ⟨1, by simp, hy⟩
    · exact ⟨2, by simp, hy⟩
    · exact ⟨3, by simp, hy⟩

/-- Heavy-atom range membership in a well-formed ligand. -/
theorem mem_haIndices (lig : Lig) (h : lig.wf = true) {k x : ℕ}
    (hk : k < lig.numFrames) :
    x ∈ lig.haIndices k ↔
      ((lig.frameAt k).habegin ≤ x ∧ x < (lig.frameAt k).haend) := by
  have hle := wf_le lig h hk
  simp only [Lig.haIndices, List.mem_range'_1]
  omega

/-- Atoms of earlier frames have smaller indices in a well-formed ligand. -/
theorem frame_order_lt (lig : Lig) (h : lig.wf = true) {k1 k2 i j : ℕ}
    (h12 : k1 < k2) (hk2 : k2 < lig.numFrames)
    (hi : i ∈ lig.haIndices k1) (hj : j ∈ lig.haIndices k2) : i < j := by
  have h1 := (mem_haIndices lig h (k := k1) (by omega)).mp hi
  have h2 := (mem_haIndices lig h hk2).mp hj
  have h3 := haend_le_habegin lig h h12 hk2
  omega

/-- C6: after construction, the interacting-pair list contains exactly the
triples `(i, j, mp(xs_i, xs_j))` over frame pairs `k1 < k2` with `i` a
heavy atom of `k1` and `j` of `k2`, excluding pairs with `j` reachable from
`i` within three hops of the covalent-bond graph (intra-frame neighbor
pairs plus the per-frame rotor joint), and excluding
`k1 = parent(k2)` with `j = rotorY(k2)` or `i = rotorX(k2)`; every stored
pair has `i < j`. -/
theorem claim_C6_interacting_pairs (lig : Lig) (h : lig.wf = true) :
    (∀ pr : IPair, pr ∈ interactingPairs lig ↔
      ∃ k1 k2, k1 < k2 ∧ k2 < lig.numFrames ∧
        pr.i1 ∈ lig.haIndices k1 ∧ pr.i2 ∈ lig.haIndices k2 ∧
        ¬ reachWithin (buildBonds lig) 3 pr.i1 pr.i2 = true ∧
        ¬ (k1 = (lig.frameAt k2).parent ∧
           (pr.i2 = (lig.frameAt k2).rotorY ∨ pr.i1 = (lig.frameAt k2).rotorX)) ∧
        pr.typePairIndex = mp (lig.atomAt pr.i1).xs (lig.atomAt pr.i2).xs) ∧
    (∀ pr ∈ interactingPairs lig, pr.i1 < pr.i2) := by
  have hchar : ∀ pr : IPair, pr ∈ interactingPairs lig ↔
      ∃ k1, k1 < lig.numFrames ∧ ∃ i ∈ lig.haIndices k1,
        ∃ k2, (k1 + 1 ≤ k2 ∧ k2 < k1 + 1 + (lig.numFrames - (k1 + 1))) ∧
          ∃ j ∈ lig.haIndices k2,
            (¬ (k1 = (lig.frameAt k2).parent ∧
               (j = (lig.frameAt k2).rotorY ∨ i = (lig.frameAt k2).rotorX)) ∧
             j ∉ collectNeighbors (buildBonds lig) i) ∧
            pr = ⟨i, j, mp (lig.atomAt i).xs (lig.atomAt j).xs⟩ := by
    intro pr
    simp only [interactingPairs, List.mem_flatMap, List.mem_map,
      List.mem_filter, List.mem_range, List.mem_range'_1]
    constructor
    · intro hpr
      obtain ⟨k1, hk1, i, hi, k2, hk2, j, ⟨hj, hpred⟩, hpr⟩ := hpr
      refine ⟨k1, hk1, i, hi, k2, hk2, j, hj, ⟨?_, ?_⟩, hpr.symm⟩
      · intro hc
        simp only [Bool.not_eq_true', Bool.or_eq_false_iff,
          Bool.and_eq_false_iff, decide_eq_false_iff_not] at hpred
        rcases hpred.1 with hl | hr
        · exact hl hc.1
        · rcases hc.2 with hy | hx
          · exact hr.1 hy
          · exact hr.2 hx
      · intro hc
        simp only [Bool.not_eq_true', Bool.or_eq_false_iff,
          Bool.and_eq_false_iff, decide_eq_false_iff_not] at hpred
        exact hpred.2 hc
    · intro hpr
      obtain ⟨k1, hk1, i, hi, k2, hk2, j, hj, ⟨hjoint, hnb⟩, hpr⟩ := hpr
      refine ⟨k1, hk1, i, hi, k2, hk2, j, ⟨hj, ?_⟩, hpr.symm⟩
      simp only [Bool.not_eq_true', Bool.or_eq_false_iff,
        Bool.and_eq_false_iff, decide_eq_false_iff_not]
      constructor
      · by_cases hpar : k1 = (lig.frameAt k2).parent
        · right
          constructor
          · intro hy
            exact hjoint ⟨hpar, Or.inl hy⟩
          · intro hx
            exact hjoint ⟨hpar, Or.inr hx⟩
        · left
          exact hpar
      · exact hnb
  constructor
  · intro pr
    rw [hchar pr]
    constructor
    · intro hpr
      obtain ⟨k1, hk1, i, hi, k2, ⟨hk2a, hk2b⟩, j, hj, ⟨hjoint, hnb⟩, hpr⟩ := hpr
      have hk2 : k2 < lig.numFrames := by omega
      have h12 : k1 < k2 := by omega
      have hij : i < j := frame_order_lt lig h h12 hk2 hi hj
      subst hpr
      refine ⟨k1, k2, h12, hk2, hi, hj, ?_, hjoint, rfl⟩
      intro hreach
      rcases (reachWithin_three (buildBonds lig) i j).mp hreach with heq | hw
      · omega
      · exact hnb ((mem_collect_iff_walk (buildBonds lig) i j).mpr hw)
    · intro hpr
      obtain ⟨k1, k2, h12, hk2, hi, hj, hreach, hjoint, htp⟩ := hpr
      refine ⟨k1, by omega, pr.i1, hi, k2, ⟨by omega, by omega⟩, pr.i2, hj,
        ⟨hjoint, ?_⟩, ?_⟩
      · intro hc
        exact hreach ((reachWithin_three (buildBonds lig) pr.i1 pr.i2).mpr
          (Or.inr ((mem_collect_iff_walk (buildBonds lig) pr.i1 pr.i2).mp hc)))
      · obtain ⟨i1, i2, tp⟩ := pr
        simp only at htp
        rw [htp]
  · intro pr hpr
    rw [hchar pr] at hpr
    obtain ⟨k1, hk1, i, hi, k2, ⟨hk2a, hk2b⟩, j, hj, _, hpr⟩ := hpr
    have hk2 : k2 < lig.numFrames := by omega
    have h12 : k1 < k2 := by omega
    have hij : i < j := frame_order_lt lig h h12 hk2 hi hj
    subst hpr
    exact hij

/-- C6 witness: the characterization instantiated on the two-frame demo
ligand at the candidate pair `(0, 1, 0)`. -/
theorem claim_C6_witness :
    (⟨0, 1, 0⟩ : IPair) ∈ interactingPairs demoLig2 ↔
      ∃ k1 k2, k1 < k2 ∧ k2 < demoLig2.numFrames ∧
        (0 : ℕ) ∈ demoLig2.haIndices k1 ∧ (1 : ℕ) ∈ demoLig2.haIndices k2 ∧
        ¬ reachWithin (buildBonds demoLig2) 3 0 1 = true ∧
        ¬ (k1 = (demoLig2.frameAt k2).parent ∧
           ((1 : ℕ) = (demoLig2.frameAt k2).rotorY ∨
            (0 : ℕ) = (demoLig2.frameAt k2).rotorX)) ∧
        (0 : ℕ) = mp (demoLig2.atomAt 0).xs (demoLig2.atomAt 1).xs :=
  (claim_C6_interacting_pairs demoLig2 (by decide)).1 ⟨0, 1, 0⟩

/-- The related stack is never empty. -/
theorem stackRel_ne_nil {fs : List PFrame} {c : ℕ} {stack : List ℕ}
    (h : StackRel fs c stack) : stack ≠ [] := by
  cases h <;> simp

/-- The current index of a related state is in range. -/
theorem stackRel_lt {fs : List PFrame} {c : ℕ} {stack : List ℕ}
    (h : StackRel fs c stack) : c < fs.length := by
  cases h with
  | root h => exact h
  | cons c rest h0 hlt hrec => exact hlt

/-- The head of the related stack is the current frame's `habegin`. -/
theorem stackRel_head {fs : List PFrame} {c : ℕ} {stack : List ℕ}
    (h : StackRel fs c stack) :
    ∃ rest, stack = (fs.getD c default).habegin :: rest := by
  cases h with
  | root h => exact ⟨[], rfl⟩
  | cons c rest h0 hlt hrec => exact ⟨rest, rfl⟩

/-- The stack relation survives appending frames. -/
theorem stackRel_append {fs : List PFrame} (fs' : List PFrame) {c : ℕ}
    {stack : List ℕ} (h : StackRel fs c stack) :
    StackRel (fs ++ fs') c stack := by
  induction h with
  | root h =>
    have hg : ((fs ++ fs').getD 0 default) = fs.getD 0 default := by
      simp [List.getD, List.getElem?_append, h, List.getElem_append_left]
    rw [← hg]
    exact StackRel.root (by simp only [List.length_append]; omega)
  | cons c rest h0 hlt hrec ih =>
    have hg : ((fs ++ fs').getD c default) = fs.getD c default := by
      simp [List.getD, List.getElem?_append, hlt, List.getElem_append_left]
    rw [← hg]
    refine StackRel.cons c rest h0 (by simp only [List.length_append]; omega) ?_
    rw [hg]
    exact ih

/-- The stack relation survives replacing a frame by one with the same
`parent` and `habegin`. -/
theorem stackRel_set {fs : List PFrame} (c' : ℕ) (f' : PFrame)
    (hpar : (fs.getD c' default).parent = f'.parent)
    (hhab : (fs.getD c' default).habegin = f'.habegin)
    {c : ℕ} {stack : List ℕ} (h : StackRel fs c stack) :
    StackRel (fs.set c' f') c stack := by
  have hgd : ∀ m, ((fs.set c' f').getD m default).habegin =
      (fs.getD m default).habegin ∧
      ((fs.set c' f').getD m default).parent = (fs.getD m default).parent := by
    intro m
    by_cases hm : c' = m
    · subst hm
      by_cases hlt : c' < fs.length
      · have hv : (fs.set c' f').getD c' default = f' := by
          simp [List.getD, List.getElem?_set_self, hlt]
        rw [hv]
        exact ⟨hhab.symm, hpar.symm⟩
      · rw [List.set_eq_of_length_le (by omega)]
        exact ⟨rfl, rfl⟩
    · have hv : (fs.set c' f').getD m default = fs.getD m default := by
        simp [List.getD, List.getElem?_set_ne hm]
      rw [hv]
      exact ⟨rfl, rfl⟩
  induction h with
  | root h =>
    rw [← (hgd 0).1]
    exact StackRel.root (by simp only [List.length_set]; omega)
  | cons c rest h0 hlt hrec ih =>
    rw [← (hgd c).1]
    refine StackRel.cons c rest h0 (by simp only [List.length_set]; omega) ?_
    rw [(hgd c).2]
    exact ih

/-- Inversion at the root: the related stack is the singleton of the root
`habegin`. -/
theorem stackRel_root_inv {fs : List PFrame} {stack : List ℕ}
    (h : StackRel fs 0 stack) : stack = [(fs.getD 0 default).habegin] := by
  cases h with
  | root hl => rfl
  | cons c rest h0 hlt hrec => exact absurd rfl h0

/-- Inversion off the root: the related stack is the current `habegin`
followed by the nonempty stack of the parent. -/
theorem stackRel_inv_ne {fs : List PFrame} {c : ℕ} {stack : List ℕ}
    (h : StackRel fs c stack) (hc : c ≠ 0) :
    ∃ rest, stack = (fs.getD c default).habegin :: rest ∧
      StackRel fs (fs.getD c default).parent rest ∧ rest ≠ [] := by
  cases h with
  | root hl => exact absurd rfl hc
  | cons c rest h0 hlt hrec => exact ⟨rest, rfl, hrec, stackRel_ne_nil hrec⟩

/-- A heavy atom line preserves the simulation relation, incrementing the
heavy count. -/
theorem psim_atomState {st : PState} {stack : List ℕ} {heavy : ℕ}
    (h : PSim st stack heavy) (serial : ℕ) :
    PSim (atomState st serial) stack (heavy + 1) := by
  obtain ⟨hheavy, hroot, hsr⟩ := h
  refine ⟨?_, hroot, hsr⟩
  simp [atomState, hheavy]

/-- A `BRANCH` line preserves the simulation relation, pushing the current
heavy count onto the stack. -/
theorem psim_branchState {st : PState} {stack : List ℕ} {heavy : ℕ}
    (h : PSim st stack heavy) (i : ℕ) :
    PSim (branchState st i) (heavy :: stack) heavy := by
  obtain ⟨hheavy, hroot, hsr⟩ := h
  have hlen : 0 < st.frames.length := by
    have := stackRel_lt hsr
    omega
  refine ⟨hheavy, ?_, ?_⟩
  · show ((st.frames ++ [newBranchFrame st i]).getD 0 default).parent = 0
    have hg0 : (st.frames ++ [newBranchFrame st i]).getD 0 default =
        st.frames.getD 0 default := by
      simp [List.getD, List.getElem?_append, hlen, List.getElem_append_left]
    rw [hg0]
    exact hroot
  · show StackRel (st.frames ++ [newBranchFrame st i])
      ((st.frames ++ [newBranchFrame st i]).length - 1) (heavy :: stack)
    have hcur : (st.frames ++ [newBranchFrame st i]).length - 1 =
        st.frames.length := by
      simp
    rw [hcur]
    have hg : (st.frames ++ [newBranchFrame st i]).getD st.frames.length default =
        newBranchFrame st i := by
      simp [List.getD]
    have hstack2 : heavy :: stack =
        ((st.frames ++ [newBranchFrame st i]).getD st.frames.length default).habegin ::
          stack := by
      rw [hg]
      simp only [newBranchFrame]
      rw [hheavy]
    rw [hstack2]
    refine StackRel.cons st.frames.length stack (by omega) (by simp) ?_
    rw [hg]
    show StackRel (st.frames ++ [newBranchFrame st i]) st.current stack
    exact stackRel_append _ hsr

/-- An `ENDBRANCH` line preserves the simulation relation, popping to the
parent (the root stays put). -/
theorem psim_endBranchState {st : PState} {stack : List ℕ} {heavy : ℕ}
    {rest' : List ℕ} (h : PSim st stack heavy) (i : ℕ)
    (hstack : stack = (st.frames.getD st.current default).habegin :: rest') :
    PSim (endBranchState st i)
      (if rest' = [] then [(st.frames.getD st.current default).habegin] else rest')
      heavy := by
  obtain ⟨hheavy, hroot, hsr⟩ := h
  have hlt := stackRel_lt hsr
  refine ⟨hheavy, ?_, ?_⟩
  · show ((st.frames.set st.current (closedFrame st i)).getD 0 default).parent = 0
    have hpp : ((st.frames.set st.current (closedFrame st i)).getD 0 default).parent =
        (st.frames.getD 0 default).parent := by
      by_cases hc0 : st.current = 0
      · rw [← hc0]
        have hv : (st.frames.set st.current (closedFrame st i)).getD st.current
            default = closedFrame st i := by
          simp [List.getD, List.getElem?_set_self, hlt]
        rw [hv]
        rfl
      · have hv : (st.frames.set st.current (closedFrame st i)).getD 0 default =
            st.frames.getD 0 default := by
          simp [List.getD, List.getElem?_set_ne hc0]
        rw [hv]
    rw [hpp]
    exact hroot
  · show StackRel (st.frames.set st.current (closedFrame st i))
      (st.frames.getD st.current default).parent
      (if rest' = [] then [(st.frames.getD st.current default).habegin] else rest')
    by_cases hc0 : st.current = 0
    · have hsr0 : StackRel st.frames 0 stack := by
        rw [← hc0]
        exact hsr
      have hstack0 := stackRel_root_inv hsr0
      have hrest : rest' = [] := by
        rw [hstack, hc0] at hstack0
        exact ((List.cons.injEq _ _ _ _).mp hstack0).2
      subst hrest
      have hcur2 : (st.frames.getD st.current default).parent = st.current := by
        rw [hc0]
        exact hroot
      rw [hcur2, if_pos rfl]
      have hsing : [(st.frames.getD st.current default).habegin] = stack := by
        rw [hstack]
      rw [hsing]
      exact stackRel_set st.current (closedFrame st i) rfl rfl hsr
    · obtain ⟨rest2, heq2, hrec2, hne2⟩ := stackRel_inv_ne hsr hc0
      have hr2 : rest' = rest2 := by
        rw [hstack] at heq2
        exact ((List.cons.injEq _ _ _ _).mp heq2).2
      subst hr2
      rw [if_neg hne2]
      exact stackRel_set st.current (closedFrame st i) rfl rfl hrec2


/-- Simulation: from related states, the parsing loop reports a
`parsing_error` of kind `k` exactly when the reference scan does, provided
the parsing loop does not hit the undefined behavior of a failed serial
search. -/
theorem prun_check_agree :
    ∀ (ls : List PLine) (st : PState) (stack : List ℕ) (heavy : ℕ),
      PSim st stack heavy → prun ls st ≠ PRes.stuck →
      (∀ k, prun ls st = PRes.perr k ↔ checkGo ls stack heavy = some k) := by
  intro ls
  induction ls with
  | nil =>
    intro st stack heavy hsim hns k
    simp [prun, checkGo]
  | cons l rest ih =>
    intro st stack heavy hsim hns k
    cases l with
    | atomLine isH sup serial =>
      by_cases hsup : sup = true
      · by_cases hh : isH = true
        · have hrun : prun (PLine.atomLine isH sup serial :: rest) st =
              prun rest st := by
            simp [prun, pstep, hsup, hh]
          have hchk : checkGo (PLine.atomLine isH sup serial :: rest) stack heavy =
              checkGo rest stack heavy := by
            simp [checkGo, hsup, hh]
          rw [hrun, hchk]
          exact ih st stack heavy hsim (fun hh2 => hns (hrun.trans hh2)) k
        · have hrun : prun (PLine.atomLine isH sup serial :: rest) st =
              prun rest (atomState st serial) := by
            simp [prun, pstep, hsup, hh]
          have hchk : checkGo (PLine.atomLine isH sup serial :: rest) stack heavy =
              checkGo rest stack (heavy + 1) := by
            simp [checkGo, hsup, hh]
          rw [hrun, hchk]
          exact ih (atomState st serial) stack (heavy + 1)
            (psim_atomState hsim serial) (fun hh2 => hns (hrun.trans hh2)) k
      · have hrun : prun (PLine.atomLine isH sup serial :: rest) st =
            PRes.perr PErr.unsupportedAtomType := by
          simp [prun, pstep, hsup]
        have hchk : checkGo (PLine.atomLine isH sup serial :: rest) stack heavy =
            some PErr.unsupportedAtomType := by
          simp [checkGo, hsup]
        rw [hrun, hchk]
        constructor
        · intro hk
          cases hk
          rfl
        · intro hk
          cases hk
          rfl
    | branchLine x =>
      cases hfind : findSerial st.numbers
          (st.frames.getD st.current default).habegin x with
      | none =>
        exfalso
        apply hns
        simp only [prun, pstep]
        rw [hfind]
      | some i =>
        have hrun : prun (PLine.branchLine x :: rest) st =
            prun rest (branchState st i) := by
          simp only [prun, pstep]
          rw [hfind]
        have hchk : checkGo (PLine.branchLine x :: rest) stack heavy =
            checkGo rest (heavy :: stack) heavy := rfl
        rw [hrun, hchk]
        exact ih (branchState st i) (heavy :: stack) heavy
          (psim_branchState hsim i) (fun hh2 => hns (hrun.trans hh2)) k
    | endBranchLine y =>
      obtain ⟨rest', hstack⟩ := stackRel_head hsim.2.2
      by_cases hemp : (st.frames.getD st.current default).habegin = st.numbers.length
      · have hrun : prun (PLine.endBranchLine y :: rest) st =
            PRes.perr PErr.emptyBranch := by
          simp only [prun, pstep]
          rw [if_pos hemp]
        have hchk : checkGo (PLine.endBranchLine y :: rest) stack heavy =
            some PErr.emptyBranch := by
          rw [hstack]
          simp only [checkGo]
          rw [if_pos (by rw [hemp]; exact hsim.1.symm)]
        rw [hrun, hchk]
        constructor
        · intro hk
          cases hk
          rfl
        · intro hk
          cases hk
          rfl
      · cases hfind : findSerial st.numbers
            (st.frames.getD st.current default).habegin y with
        | none =>
          exfalso
          apply hns
          simp only [prun, pstep]
          rw [if_neg hemp, hfind]
        | some i =>
          have hne : ¬ ((st.frames.getD st.current default).habegin = heavy) := by
            rw [hsim.1]
            exact hemp
          have hrun : prun (PLine.endBranchLine y :: rest) st =
              prun rest (endBranchState st i) := by
            simp only [prun, pstep]
            rw [if_neg hemp, hfind]
          have hchk : checkGo (PLine.endBranchLine y :: rest) stack heavy =
              checkGo rest (if rest' = [] then
                [(st.frames.getD st.current default).habegin] else rest') heavy := by
            rw [hstack]
            simp only [checkGo]
            rw [if_neg hne]
          rw [hrun, hchk]
          exact ih (endBranchState st i) _ heavy
            (psim_endBranchState hsim i hstack)
            (fun hh2 => hns (hrun.trans hh2)) k
    | otherLine =>
      have hrun : prun (PLine.otherLine :: rest) st = prun rest st := rfl
      have hchk : checkGo (PLine.otherLine :: rest) stack heavy =
          checkGo rest stack heavy := rfl
      rw [hrun, hchk]
      exact ih st stack heavy hsim (fun hh2 => hns (hrun.trans hh2)) k

/-- C3 counterexample: an input whose `BRANCH` is never closed — heavy
atom (serial 1), `BRANCH 1`, heavy atom (serial 2) — parses to completion
with `current = 1 ≠ 0` (unmatched `BRANCH` at end of input) yet raises no
`parsing_error`; the source only guards this with `BOOST_ASSERT(current ==
0)`, so the claim's third error condition does not hold. -/
theorem claim_C3_counterexample :
    parseLigand [PLine.atomLine false true 1, PLine.branchLine 1,
      PLine.atomLine false true 2] =
      PRes.ok ⟨[⟨0, 0, 0, 0, true⟩, ⟨0, 0, 0, 1, true⟩], [1, 2], 1⟩ ∧
    (1 : ℕ) ≠ 0 ∧
    checkLigand [PLine.atomLine false true 1, PLine.branchLine 1,
      PLine.atomLine false true 2] = none := by
  refine ⟨by decide, by decide, by decide⟩

/-- C3 amended: on any input where the serial searches succeed (the source
otherwise runs past the end of its vector — undefined behavior, not an
exception), ligand construction raises a `parsing_error` of kind `k`
exactly when the reference scan does: `unsupportedAtomType` at an
unsupported `ATOM`/`HETATM` type, `emptyBranch` at an `ENDBRANCH` closing a
branch with no heavy atom; unmatched `BRANCH`/`ENDBRANCH` at end of input
raises nothing (only a `BOOST_ASSERT`), and every other input completes
without raising. -/
theorem claim_C3_amended (ls : List PLine) (hns : parseLigand ls ≠ PRes.stuck) :
    ∀ k, parseLigand ls = PRes.perr k ↔ checkLigand ls = some k := by
  have hsim : PSim initPState [0] 0 :=
    ⟨rfl, rfl, StackRel.root (by decide)⟩
  exact prun_check_agree ls initPState [0] 0 hsim hns

/-- C3 witness: an unsupported atom type raises `unsupportedAtomType` on
both sides. -/
theorem claim_C3_witness :
    parseLigand [PLine.atomLine false false 1] =
      PRes.perr PErr.unsupportedAtomType ↔
    checkLigand [PLine.atomLine false false 1] =
      some PErr.unsupportedAtomType :=
  claim_C3_amended [PLine.atomLine false false 1] (by decide)
    PErr.unsupportedAtomType

end IDock
